import Mathlib

/-!
Verification development for the in-memory table engine of the write buffer
(`write_buffer/src/table.rs`).

The Rust source is shallowly embedded: `Table`, its append path, the
predicate-based pruning functions, the plan builders and the prefix
reorderer are translated function by function.  External collaborators that
are declared in other crates of the repository (the `Dictionary`, the
`Column` storage primitives, `Partition` and `PartitionPredicate`) are
modelled from the specification, as marked in their doc comments.

Machine integers: column symbols (`u32`) are modelled as `Nat`; timestamps
(`i64`) as `Int`; `f64` payloads are carried as raw bit patterns (no claim
depends on float arithmetic).  Rust `Result` becomes `Except`/`RunResult`;
a Rust panic (`expect`, `assert!`, out-of-bounds indexing) is modelled by
the explicit `RunResult.panicked` outcome.
-/

/-- Lexicographic comparison (non-strict) of character lists by code point.
Rust compares `String`s bytewise on UTF-8, which coincides with
code-point order. -/
def charListLe : List Char → List Char → Bool
  | [], _ => true
  | _ :: _, [] => false
  | a :: as, b :: bs => if a = b then charListLe as bs else decide (a < b)

/-- Lexicographic comparison (strict) of character lists by code point. -/
def charListLt : List Char → List Char → Bool
  | [], [] => false
  | [], _ :: _ => true
  | _ :: _, [] => false
  | a :: as, b :: bs => if a = b then charListLt as bs else decide (a < b)

/-- Non-strict lexicographic order on strings, as Rust's `String` ordering. -/
def sLe (a b : String) : Bool := charListLe a.data b.data

/-- Strict lexicographic order on strings. -/
def sLt (a b : String) : Bool := charListLt a.data b.data

/-- Raw bit pattern of an `f64` value.  Claims never compute with floats, so
a value is identified by its bits. -/
structure F64 where
  bits : Nat
deriving Repr, DecidableEq

/-- Typed value of a WAL row entry (`wb::Value` union: one of the five column
kinds). -/
inductive Value where
  | TagValue (v : String)
  | StringValue (v : String)
  | F64Value (v : F64)
  | I64Value (v : Int)
  | BoolValue (v : Bool)
deriving Repr, DecidableEq

/-- Human-readable name of a value's kind, used in error payloads. -/
def Value.type_description : Value → String
  | .TagValue _ => "tag"
  | .StringValue _ => "String"
  | .F64Value _ => "f64"
  | .I64Value _ => "i64"
  | .BoolValue _ => "bool"

/-- Modelled from the spec: error type of the external `Column` storage
primitives (`crate::column::Error`; `column.rs` is not under `src/`).  The
spec requires `push` to enforce a kind match and `has_i64_range` to fail on
a column that is not of the `i64` kind. -/
inductive ColumnError where
  | typeMismatch (existing_column_type : String) (inserted_value_type : String)
  | i64RangeOnNonI64 (actual_column_type : String)
deriving Repr, DecidableEq

/-- Modelled from the spec: the external `Column` type (`column.rs` is not
under `src/`): a typed, nullable, growable array for one of
Tag/String/Float64/Int64/Bool, where a Tag stores dictionary symbols.  The
summary statistics the source pairs with the value vector only accelerate
`has_i64_range`; they are not modelled, and `has_i64_range` answers by
scanning, which the spec states is the semantics the statistics implement. -/
inductive Column where
  | Tag (vals : List (Option Nat))
  | Str (vals : List (Option String))
  | F64 (vals : List (Option F64))
  | I64 (vals : List (Option Int))
  | Boolean (vals : List (Option Bool))
deriving Repr, DecidableEq

/-- Length of a column (number of rows stored, nulls included). -/
def Column.len : Column → Nat
  | .Tag vals => vals.length
  | .Str vals => vals.length
  | .F64 vals => vals.length
  | .I64 vals => vals.length
  | .Boolean vals => vals.length

/-- Human-readable name of a column's kind. -/
def Column.type_description : Column → String
  | .Tag _ => "tag"
  | .Str _ => "String"
  | .F64 _ => "f64"
  | .I64 _ => "i64"
  | .Boolean _ => "bool"

/-- Modelled from the spec: the external `Dictionary` (symbol interning;
`dictionary.rs` is not under `src/`): a bijective, growth-only mapping
between interned strings and `u32` symbols.  A symbol is the position of
its string in the entry list. -/
structure Dictionary where
  entries : List String
deriving Repr, DecidableEq

/-- First index of `s` in a list of interned strings, if present. -/
def idxOfStr (s : String) : List String → Option Nat
  | [] => none
  | c :: rest => if c = s then some 0 else (idxOfStr s rest).map (· + 1)

/-- Modelled from the spec: `Dictionary::lookup_value`. -/
def Dictionary.lookup_value (d : Dictionary) (s : String) : Option Nat :=
  idxOfStr s d.entries

/-- Modelled from the spec: `Dictionary::lookup_value_or_insert` — returns the
existing symbol or interns the string under a fresh symbol; never fails. -/
def Dictionary.lookup_value_or_insert (d : Dictionary) (s : String) : Dictionary × Nat :=
  match idxOfStr s d.entries with
  | some i => (d, i)
  | none => (⟨d.entries ++ [s]⟩, d.entries.length)

/-- Modelled from the spec: `Dictionary::lookup_id` — the string interned
under a symbol, failing when the symbol is unknown. -/
def Dictionary.lookup_id (d : Dictionary) (id : Nat) : Option String :=
  d.entries[id]?

/-- Modelled from the spec: `Column::push` — type-checked append of one value;
a kind mismatch fails and leaves the column unchanged; a Tag value is
interned through the dictionary. -/
def Column.push (c : Column) (d : Dictionary) (v : Value) :
    Except ColumnError (Dictionary × Column) :=
  match c, v with
  | .Tag vals, .TagValue s =>
    let (d', sym) := d.lookup_value_or_insert s
    .ok (d', .Tag (vals ++ [some sym]))
  | .Str vals, .StringValue s => .ok (d, .Str (vals ++ [some s]))
  | .F64 vals, .F64Value x => .ok (d, .F64 (vals ++ [some x]))
  | .I64 vals, .I64Value x => .ok (d, .I64 (vals ++ [some x]))
  | .Boolean vals, .BoolValue b => .ok (d, .Boolean (vals ++ [some b]))
  | c, v => .error (.typeMismatch c.type_description v.type_description)

/-- Modelled from the spec: `Column::with_value` — a new column sized to
`row_count` nulls with the value appended, its kind inferred from the
value's tag. -/
def Column.with_value (d : Dictionary) (row_count : Nat) (v : Value) :
    Except ColumnError (Dictionary × Column) :=
  match v with
  | .TagValue s =>
    let (d', sym) := d.lookup_value_or_insert s
    .ok (d', .Tag (List.replicate row_count none ++ [some sym]))
  | .StringValue s => .ok (d, .Str (List.replicate row_count none ++ [some s]))
  | .F64Value x => .ok (d, .F64 (List.replicate row_count none ++ [some x]))
  | .I64Value x => .ok (d, .I64 (List.replicate row_count none ++ [some x]))
  | .BoolValue b => .ok (d, .Boolean (List.replicate row_count none ++ [some b]))

/-- Modelled from the spec: `Column::push_none_if_len_equal` — append one null
exactly when the column still has length `n`. -/
def Column.push_none_if_len_equal (c : Column) (n : Nat) : Column :=
  match c with
  | .Tag vals => if vals.length = n then .Tag (vals ++ [none]) else .Tag vals
  | .Str vals => if vals.length = n then .Str (vals ++ [none]) else .Str vals
  | .F64 vals => if vals.length = n then .F64 (vals ++ [none]) else .F64 vals
  | .I64 vals => if vals.length = n then .I64 (vals ++ [none]) else .I64 vals
  | .Boolean vals => if vals.length = n then .Boolean (vals ++ [none]) else .Boolean vals

/-- Modelled from the spec: `Column::has_i64_range(lo, hi)` — whether the
column, restricted to non-null rows, has at least one value in `[lo, hi)`;
fails when the column is not of the `i64` kind. -/
def Column.has_i64_range (c : Column) (lo hi : Int) : Except ColumnError Bool :=
  match c with
  | .I64 vals => .ok (vals.any (fun o => o.elim false (fun v => decide (lo ≤ v ∧ v < hi))))
  | c => .error (.i64RangeOnNonI64 c.type_description)

/-- Whether the column is of the `i64` kind. -/
def Column.isI64 : Column → Bool
  | .I64 _ => true
  | _ => false

/-- Whether the column is of the Tag kind. -/
def Column.isTag : Column → Bool
  | .Tag _ => true
  | _ => false

/-- Whether the column stores a null at index `i` (false when `i` is out of
range). -/
def Column.nullAt (c : Column) (i : Nat) : Bool :=
  match c with
  | .Tag vals => vals[i]? == some none
  | .Str vals => vals[i]? == some none
  | .F64 vals => vals[i]? == some none
  | .I64 vals => vals[i]? == some none
  | .Boolean vals => vals[i]? == some none

/-- One value entry of a WAL row (`wb::Value`): an optional column name and a
typed value.  A missing name is a malformed entry. -/
structure RowValue where
  column : Option String
  value : Value
deriving Repr, DecidableEq

/-- One WAL row (`wb::Row`): an optional vector of value entries. -/
structure Row where
  values : Option (List RowValue)
deriving Repr, DecidableEq

/-- Error enum of `table.rs` (the constructors exercised by the embedded
functions; payloads follow the Rust fields, with `snafu` sources kept). -/
inductive Error where
  | TagValueIdNotFoundInDictionary (value : Nat) (partition : String)
  | ColumnErr (column : String) (source : ColumnError)
  | InternalColumnTypeMismatch (column_id : Nat) (expected_column_type : String)
      (actual_column_type : String)
  | ColumnNameNotFoundInDictionary (column_name : String) (partition : String)
  | ColumnIdNotFoundInDictionary (column_id : Nat) (partition : String)
  | InternalNoColumnInIndex (column_name : String) (column_id : Nat)
  | CreatingFromWal (column : Nat) (source : ColumnError)
  | ColumnPredicateEvaluation (column : Nat) (source : ColumnError)
  | ColumnNameNotInRow (table : Nat)
  | GroupColumnNotFound (column_name : String) (all_tag_column_names : String)
  | DuplicateGroupColumn (column_name : String)
deriving Repr, DecidableEq

/-- Outcome of running an embedded function: a returned value, a returned
`Err`, or a Rust panic (`expect`, `assert!`, out-of-bounds indexing). -/
inductive RunResult (α : Type) where
  | ok (val : α)
  | err (e : Error)
  | panicked (msg : String)
deriving Repr, DecidableEq

/-- The `Table` struct: interned table name, map from column symbol to the
position of the column in `columns` (the `HashMap` is modelled as an
association list with unique keys in insertion order), and the column
storage. -/
structure Table where
  id : Nat
  column_id_to_index : List (Nat × Nat)
  columns : List Column
deriving Repr, DecidableEq

/-- Lookup in the column index (first matching key, as a `HashMap` with
unique keys). -/
def lookupIdx (m : List (Nat × Nat)) (k : Nat) : Option Nat :=
  match m with
  | [] => none
  | (k', v) :: rest => if k' = k then some v else lookupIdx rest k

/-- `Table::new`. -/
def Table.new (id : Nat) : Table :=
  { id := id, column_id_to_index := [], columns := [] }

/-- `Table::row_count`: length of the first column, or 0 with no columns. -/
def Table.row_count (t : Table) : Nat :=
  (t.columns.head?.map Column.len).getD 0

/-- Value-processing loop of `Table::append_row`: resolve each entry's column
name, create or push into the column, stopping at the first failure.
`row_count` is the length captured before the row was applied. -/
def appendRowLoop (d : Dictionary) (t : Table) (row_count : Nat) :
    List RowValue → Dictionary × Table × RunResult Unit
  | [] => (d, t, .ok ())
  | v :: rest =>
    match v.column with
    | none => (d, t, .err (.ColumnNameNotInRow t.id))
    | some column_name =>
      let (d₁, column_id) := d.lookup_value_or_insert column_name
      match lookupIdx t.column_id_to_index column_id with
      | some idx =>
        match t.columns[idx]? with
        | none => (d₁, t, .panicked "index out of bounds")
        | some c =>
          match c.push d₁ v.value with
          | .error ce => (d₁, t, .err (.ColumnErr column_name ce))
          | .ok (d₂, c') =>
            appendRowLoop d₂ { t with columns := t.columns.set idx c' } row_count rest
      | none =>
        let idx := t.columns.length
        match Column.with_value d₁ row_count v.value with
        | .error ce =>
          (d₁, { t with column_id_to_index := t.column_id_to_index ++ [(column_id, idx)] },
            .err (.CreatingFromWal column_id ce))
        | .ok (d₂, newCol) =>
          appendRowLoop d₂
            { t with
              column_id_to_index := t.column_id_to_index ++ [(column_id, idx)],
              columns := t.columns ++ [newCol] }
            row_count rest

/-- `Table::append_row`: process the row's values, then append one null to
every column whose length still equals the captured row count.  On failure
the state reached so far is returned unchanged (no rollback, no padding). -/
def Table.append_row (t : Table) (d : Dictionary) (values : List RowValue) :
    Dictionary × Table × RunResult Unit :=
  let row_count := t.row_count
  match appendRowLoop d t row_count values with
  | (d', t', .ok ()) =>
    (d', { t' with columns := t'.columns.map (·.push_none_if_len_equal row_count) }, .ok ())
  | r => r

/-- `Table::append_rows`: apply `append_row` to each row in order, skipping
rows whose value vector is absent, stopping at the first failure. -/
def Table.append_rows (t : Table) (d : Dictionary) : List Row → Dictionary × Table × RunResult Unit
  | [] => (d, t, .ok ())
  | row :: rest =>
    match row.values with
    | none => t.append_rows d rest
    | some values =>
      match t.append_row d values with
      | (d', t', .ok ()) => t'.append_rows d' rest
      | r => r


/-- The timestamp range `[start, end)` of a predicate (`TimestampRange`;
`end` is a Lean keyword, so the field is `end_`). -/
structure TimestampRange where
  start : Int
  end_ : Int
deriving Repr, DecidableEq

/-- Modelled from the spec: the three-valued required-columns set
(`PartitionIdSet`; `partition.rs` is not under `src/`). -/
inductive PartitionIdSet where
  | AtLeastOneMissing
  | Present (symbols : List Nat)
deriving Repr, DecidableEq

/-- Opaque logical expression handed to the execution engine (a datafusion
`Expr`): a column reference, a sort wrapper, or the predicate's generic
filter expression consumed opaquely. -/
inductive Expr where
  | Column (name : String)
  | SortExpr (expr : Expr) (asc : Bool) (nulls_first : Bool)
  | Opaque (id : Nat)
deriving Repr, DecidableEq

/-- Modelled from the spec: the compiled `PartitionPredicate`
(`partition.rs` is not under `src/`): optional time range, field
restriction set, table-name set, required-columns set, the symbol of the
time column, and an optional generic filter expression. -/
structure PartitionPredicate where
  table_name_predicate : Option (List Nat)
  field_restriction : Option (List Nat)
  time_column_id : Nat
  range : Option TimestampRange
  required_columns : Option PartitionIdSet
  filter_expr : Option Expr
deriving Repr, DecidableEq

/-- Modelled from the spec: `PartitionPredicate::has_field_restriction`. -/
def PartitionPredicate.has_field_restriction (p : PartitionPredicate) : Bool :=
  p.field_restriction.isSome

/-- Modelled from the spec: `PartitionPredicate::should_include_field` — true
with no field restriction, otherwise membership in the restriction set. -/
def PartitionPredicate.should_include_field (p : PartitionPredicate) (column_id : Nat) : Bool :=
  match p.field_restriction with
  | none => true
  | some fr => fr.contains column_id

/-- Modelled from the spec: `PartitionPredicate::is_time_column`. -/
def PartitionPredicate.is_time_column (p : PartitionPredicate) (column_id : Nat) : Bool :=
  column_id == p.time_column_id

/-- Modelled from the spec: the `Partition` fields `table.rs` reads — the
partition key and the shared dictionary. -/
structure Partition where
  key : String
  dictionary : Dictionary
deriving Repr, DecidableEq

/-- The name of the timestamp column (`data_types::TIME_COLUMN_NAME`;
modelled from the spec, whose examples name the column `time`). -/
def TIME_COLUMN_NAME : String := "time"

/-- `Table::column`: resolve a column symbol through the index.  The source
unwraps with `expect("invalid column id")`, so an absent symbol panics
instead of producing an `Err`; an out-of-range stored index panics at the
`Vec` access. -/
def Table.column (t : Table) (column_id : Nat) : RunResult Column :=
  match lookupIdx t.column_id_to_index column_id with
  | none => .panicked "invalid column id"
  | some idx =>
    match t.columns[idx]? with
    | none => .panicked "index out of bounds"
    | some c => .ok c

/-- `Table::matches_column_selection`: the table has at least one of the
requested field columns, vacuously true with no restriction. -/
def Table.matches_column_selection (t : Table) (column_selection : Option (List Nat)) : Bool :=
  match column_selection with
  | some sel => t.column_id_to_index.any (fun e => sel.contains e.1)
  | none => true

/-- `Table::matches_table_name_predicate`. -/
def Table.matches_table_name_predicate (t : Table) (table_name_predicate : Option (List Nat)) :
    Bool :=
  match table_name_predicate with
  | some s => s.contains t.id
  | none => true

/-- `Table::matches_timestamp_predicate`: with a time range, resolve the time
column and ask it for a non-null `i64` value in the range; a column error
is wrapped as `ColumnPredicateEvaluation`. -/
def Table.matches_timestamp_predicate (t : Table) (p : PartitionPredicate) : RunResult Bool :=
  match p.range with
  | none => .ok true
  | some range =>
    match t.column p.time_column_id with
    | .panicked m => .panicked m
    | .err e => .err e
    | .ok time_column =>
      match time_column.has_i64_range range.start range.end_ with
      | .ok b => .ok b
      | .error ce => .err (.ColumnPredicateEvaluation p.time_column_id ce)

/-- `Table::has_columns`: false on the `AtLeastOneMissing` sentinel; a
concrete set requires every symbol to be a key of the column index. -/
def Table.has_columns (t : Table) (columns : Option PartitionIdSet) : Bool :=
  match columns with
  | none => true
  | some .AtLeastOneMissing => false
  | some (.Present symbols) =>
    symbols.all (fun s => (lookupIdx t.column_id_to_index s).isSome)

/-- `Table::could_match_predicate`: conjunction of the four pruning checks,
with Rust's short-circuit evaluation and `?`-propagation from the
timestamp check. -/
def Table.could_match_predicate (t : Table) (p : PartitionPredicate) : RunResult Bool :=
  if t.matches_column_selection p.field_restriction
      && t.matches_table_name_predicate p.table_name_predicate then
    match t.matches_timestamp_predicate p with
    | .ok tb => .ok (tb && t.has_columns p.required_columns)
    | .err e => .err e
    | .panicked m => .panicked m
  else
    .ok false

/-- One materialized column of a record batch (nullable arrow array). -/
inductive ArrowArray where
  | utf8 (vals : List (Option String))
  | float64 (vals : List (Option F64))
  | int64 (vals : List (Option Int))
  | boolean (vals : List (Option Bool))
deriving Repr, DecidableEq

/-- A materialized record batch: named arrow columns in schema order.
Builder-level arrow failures (capacity/format) are not modelled. -/
def RecordBatch := List (String × ArrowArray)
deriving Repr, DecidableEq

/-- Resolve the symbols of a Tag column through the dictionary, failing with
`TagValueIdNotFoundInDictionary` on an unknown symbol. -/
def resolveTags (part : Partition) : List (Option Nat) → Except Error (List (Option String))
  | [] => .ok []
  | none :: rest => (resolveTags part rest).map (none :: ·)
  | some id :: rest =>
    match part.dictionary.lookup_id id with
    | none => .error (.TagValueIdNotFoundInDictionary id part.key)
    | some s => (resolveTags part rest).map (some s :: ·)

/-- Translate one stored column into an arrow array (the per-kind builder
loops of `to_arrow_impl`). -/
def columnToArrow (part : Partition) : Column → Except Error ArrowArray
  | .Str vals => .ok (.utf8 vals)
  | .Tag vals => (resolveTags part vals).map .utf8
  | .F64 vals => .ok (.float64 vals)
  | .I64 vals => .ok (.int64 vals)
  | .Boolean vals => .ok (.boolean vals)

/-- Column loop of `Table::to_arrow_impl` over (name, position) requests; a
position outside `columns` panics at the `Vec` access. -/
def toArrowImplAux (t : Table) (part : Partition) :
    List (String × Nat) → RunResult (List (String × ArrowArray))
  | [] => .ok []
  | (column_name, column_index) :: rest =>
    match t.columns[column_index]? with
    | none => .panicked "index out of bounds"
    | some c =>
      match columnToArrow part c with
      | .error e => .err e
      | .ok arr =>
        match toArrowImplAux t part rest with
        | .ok cols => .ok ((column_name, arr) :: cols)
        | .err e => .err e
        | .panicked m => .panicked m

/-- `Table::to_arrow_impl`: build one arrow column per requested (name,
position) pair, in the given order. -/
def Table.to_arrow_impl (t : Table) (part : Partition) (req : List (String × Nat)) :
    RunResult RecordBatch :=
  toArrowImplAux t part req

/-- Name-resolution loop of `Table::all_to_arrow`: each column symbol of the
index is resolved through the dictionary, failing with
`ColumnIdNotFoundInDictionary`. -/
def allColumnNames (part : Partition) :
    List (Nat × Nat) → Except Error (List (String × Nat))
  | [] => .ok []
  | (column_id, column_index) :: rest =>
    match part.dictionary.lookup_id column_id with
    | none => .error (.ColumnIdNotFoundInDictionary column_id part.key)
    | some name => (allColumnNames part rest).map ((name, column_index) :: ·)

/-- `Table::all_to_arrow`: resolve all column names, sort the requests by name
(`sort_by` is a stable sort, modelled by insertion sort), then materialize. -/
def Table.all_to_arrow (t : Table) (part : Partition) : RunResult RecordBatch :=
  match allColumnNames part t.column_id_to_index with
  | .error e => .err e
  | .ok requested =>
    t.to_arrow_impl part
      (List.insertionSort (fun a b => sLe a.1 b.1) requested)

/-- Logical plan handed to the execution engine: the staged pipeline
Source → Filter → Sort → Project → PivotSchema built by the five
builders. -/
inductive LogicalPlan where
  | InMemoryScan (data : RecordBatch)
  | Filter (expr : Expr) (input : LogicalPlan)
  | Sort (exprs : List Expr) (input : LogicalPlan)
  | Projection (exprs : List Expr) (input : LogicalPlan)
  | SchemaPivot (input : LogicalPlan)
deriving Repr, DecidableEq

/-- `Table::add_datafusion_predicate`: wrap the plan in a Filter stage when
the predicate carries a generic filter expression.  Builder failures of the
external engine are not modelled. -/
def add_datafusion_predicate (plan : LogicalPlan) (p : PartitionPredicate) : LogicalPlan :=
  match p.filter_expr with
  | some e => .Filter e plan
  | none => plan

/-- The value returned by `series_set_plan`: table name, plan, and the two
name lists. -/
structure SeriesSetPlan where
  table_name : String
  plan : LogicalPlan
  tag_columns : List String
  field_columns : List String
deriving Repr, DecidableEq

/-- IntoExpr::into_sort_expr — ascending, nulls first. -/
def intoSortExpr (name : String) : Expr :=
  .SortExpr (.Column name) true true

/-- First position of `pc` in `tag_columns` (the `enumerate().find` loop of
`reorder_prefix`). -/
def findColumnIndex (pc : String) : List String → Option Nat
  | [] => none
  | c :: rest => if pc = c then some 0 else (findColumnIndex pc rest).map (· + 1)

/-- Body of `reorder_prefix`: walk the requested prefix, recording for each
name the first index at which it occurs in `tag_columns` and marking it
used; an absent name fails with `GroupColumnNotFound` naming all tag
columns, a reused index fails with `DuplicateGroupColumn`. -/
def buildPrefixMap (tag_columns : List String) :
    List String → List Bool → Except Error (List Nat × List Bool)
  | [], tag_used_set => .ok ([], tag_used_set)
  | pc :: rest, tag_used_set =>
    match findColumnIndex pc tag_columns with
    | some index =>
      if tag_used_set.getD index false then
        .error (.DuplicateGroupColumn pc)
      else
        match buildPrefixMap tag_columns rest (tag_used_set.set index true) with
        | .ok (prefix_map, used') => .ok (index :: prefix_map, used')
        | .error e => .error e
    | none =>
      .error (.GroupColumnNotFound pc (String.intercalate ", " tag_columns))

/-- Suffix of the output of `reorder_prefix`: the tag columns whose position
was not consumed by the prefix, in their original order (the
`enumerate().filter_map` loop, `k` being the position of the head). -/
def keepUnused (tag_used_set : List Bool) : Nat → List String → List String
  | _, [] => []
  | k, c :: rest =>
    if tag_used_set.getD k false then keepUnused tag_used_set (k + 1) rest
    else c :: keepUnused tag_used_set (k + 1) rest

/-- `reorder_prefix` (embeds the free function `reorder_prefix` of
`table.rs`): reorder `tag_columns` so that `prefix_columns` appears first,
in requested order, followed by the unused columns in original order. -/
def reorderPrefix (prefix_columns : List String) (tag_columns : List String) :
    Except Error (List String) :=
  match buildPrefixMap tag_columns prefix_columns
      (List.replicate tag_columns.length false) with
  | .error e => .error e
  | .ok (prefix_map, tag_used_set) =>
    .ok (prefix_map.map (fun i => tag_columns.getD i "") ++ keepUnused tag_used_set 0 tag_columns)

/-- Name-collection loop of `Table::tag_and_field_column_names`: walk the
column index, resolve each name (`expect` panics on an unknown symbol,
modelled as `none`), skip the time column by name, route Tag columns to
the tag list and the rest — when passing the field restriction — to the
field list. -/
def tagFieldNamesAux (t : Table) (p : PartitionPredicate) (part : Partition) :
    List (Nat × Nat) → Option (List String × List String)
  | [] => some ([], [])
  | (column_id, column_index) :: rest =>
    match part.dictionary.lookup_id column_id with
    | none => none
    | some column_name =>
      match tagFieldNamesAux t p part rest with
      | none => none
      | some (tag_columns, field_columns) =>
        if column_name = TIME_COLUMN_NAME then some (tag_columns, field_columns)
        else
          match t.columns[column_index]? with
          | none => none
          | some (.Tag _) => some (column_name :: tag_columns, field_columns)
          | some _ =>
            if p.should_include_field column_id then
              some (tag_columns, column_name :: field_columns)
            else some (tag_columns, field_columns)

/-- `Table::tag_and_field_column_names`: the tag and field name lists, each
sorted by name (`Vec::sort` is stable, modelled by insertion sort).  The
source panics (`expect`) on an unresolvable symbol, modelled as `none`. -/
def Table.tag_and_field_column_names (t : Table) (p : PartitionPredicate) (part : Partition) :
    Option (List String × List String) :=
  match tagFieldNamesAux t p part t.column_id_to_index with
  | none => none
  | some (tag_columns, field_columns) =>
    some (List.insertionSort (fun a b => sLe a b) tag_columns,
      List.insertionSort (fun a b => sLe a b) field_columns)

/-- Name-collection loop of `Table::field_and_time_column_names`: skip Tag
columns, keep a column's name when it passes the field restriction or is
the time column (by symbol).  An unresolvable symbol or an out-of-range
position panics, modelled as `none`. -/
def fieldTimeNamesAux (t : Table) (p : PartitionPredicate) (part : Partition) :
    List (Nat × Nat) → Option (List String)
  | [] => some []
  | (column_id, column_index) :: rest =>
    match t.columns[column_index]? with
    | none => none
    | some (.Tag _) => fieldTimeNamesAux t p part rest
    | some _ =>
      if p.should_include_field column_id || p.is_time_column column_id then
        match part.dictionary.lookup_id column_id with
        | none => none
        | some column_name =>
          match fieldTimeNamesAux t p part rest with
          | none => none
          | some rest' => some (column_name :: rest')
      else fieldTimeNamesAux t p part rest

/-- `Table::field_and_time_column_names`: the kept names, sorted as one list
(`Vec::sort`, modelled by insertion sort). -/
def Table.field_and_time_column_names (t : Table) (p : PartitionPredicate) (part : Partition) :
    Option (List String) :=
  (fieldTimeNamesAux t p part t.column_id_to_index).map
    (List.insertionSort (fun a b => sLe a b))

/-- `Table::field_names_plan`: materialize the whole table, filter, then
project the field-and-time name list.  No Sort stage. -/
def Table.field_names_plan (t : Table) (p : PartitionPredicate) (part : Partition) :
    RunResult LogicalPlan :=
  match t.all_to_arrow part with
  | .err e => .err e
  | .panicked m => .panicked m
  | .ok data =>
    let plan_builder := add_datafusion_predicate (.InMemoryScan data) p
    match t.field_and_time_column_names p part with
    | none => .panicked "Find column name in dictionary"
    | some select_names =>
      .ok (.Projection (select_names.map Expr.Column) plan_builder)

/-- `Table::series_set_plan_impl`: look up the table name (`expect` panics),
compute the sorted tag/field name lists, optionally reorder the tag prefix,
materialize, filter, sort by tags then time, and project tags, fields,
time. -/
def Table.series_set_plan_impl (t : Table) (p : PartitionPredicate)
    (prefix_columns : Option (List String)) (part : Partition) : RunResult SeriesSetPlan :=
  match part.dictionary.lookup_id t.id with
  | none => .panicked "looking up table name in dictionary"
  | some table_name =>
    match t.tag_and_field_column_names p part with
    | none => .panicked "Find column name in dictionary"
    | some (tag_columns₀, field_columns) =>
      let reordered : Except Error (List String) :=
        match prefix_columns with
        | some pcs => reorderPrefix pcs tag_columns₀
        | none => .ok tag_columns₀
      match reordered with
      | .error e => .err e
      | .ok tag_columns =>
        match t.all_to_arrow part with
        | .err e => .err e
        | .panicked m => .panicked m
        | .ok data =>
          let plan_builder := add_datafusion_predicate (.InMemoryScan data) p
          let sort_exprs := tag_columns.map intoSortExpr ++ [intoSortExpr TIME_COLUMN_NAME]
          let select_exprs := tag_columns.map Expr.Column ++ field_columns.map Expr.Column
            ++ [Expr.Column TIME_COLUMN_NAME]
          .ok
            { table_name := table_name,
              plan := .Projection select_exprs (.Sort sort_exprs plan_builder),
              tag_columns := tag_columns,
              field_columns := field_columns }

/-- `Table::series_set_plan`: `series_set_plan_impl` without a prefix. -/
def Table.series_set_plan (t : Table) (p : PartitionPredicate) (part : Partition) :
    RunResult SeriesSetPlan :=
  t.series_set_plan_impl p none part

/-- `Table::tag_values_plan`: materialize the whole table, assert that the
predicate has no field restriction (a violated `assert!` panics), filter,
and project the single requested column. -/
def Table.tag_values_plan (t : Table) (column_name : String) (p : PartitionPredicate)
    (part : Partition) : RunResult LogicalPlan :=
  match t.all_to_arrow part with
  | .err e => .err e
  | .panicked m => .panicked m
  | .ok data =>
    if p.has_field_restriction then
      .panicked "assertion failed: !partition_predicate.has_field_restriction()"
    else
      let plan_builder := add_datafusion_predicate (.InMemoryScan data) p
      .ok (.Projection [Expr.Column column_name] plan_builder)

/-! Helper lemmas about the index and the dictionary. -/

theorem lookupIdx_none_iff (m : List (Nat × Nat)) (k : Nat) :
    lookupIdx m k = none ↔ k ∉ m.map Prod.fst := by
  induction m with
  | nil => simp [lookupIdx]
  | cons e rest ih =>
    obtain ⟨k', v⟩ := e
    by_cases hk : k' = k
    · subst hk
      simp [lookupIdx]
    · simp [lookupIdx, hk, ih, Ne.symm hk]

theorem lookupIdx_mem {m : List (Nat × Nat)} {k v : Nat} (h : lookupIdx m k = some v) :
    (k, v) ∈ m := by
  induction m with
  | nil => simp [lookupIdx] at h
  | cons e rest ih =>
    obtain ⟨k', v'⟩ := e
    by_cases hk : k' = k
    · subst hk
      simp [lookupIdx] at h
      simp [h]
    · simp [lookupIdx, hk] at h
      exact List.mem_cons_of_mem _ (ih h)

theorem lookupIdx_isSome_of_mem {m : List (Nat × Nat)} {k v : Nat} (h : (k, v) ∈ m) :
    (lookupIdx m k).isSome = true := by
  induction m with
  | nil => simp at h
  | cons e rest ih =>
    obtain ⟨k', v'⟩ := e
    rcases List.mem_cons.mp h with h₁ | h₂
    · obtain ⟨h₁, _⟩ := Prod.mk.injEq .. ▸ h₁
      simp [lookupIdx, h₁.symm]
    · by_cases hk : k' = k
      · simp [lookupIdx, hk]
      · simpa [lookupIdx, hk] using ih h₂

theorem lookupIdx_isSome_iff (m : List (Nat × Nat)) (k : Nat) :
    (lookupIdx m k).isSome = true ↔ ∃ v, (k, v) ∈ m := by
  constructor
  · intro h
    rcases ho : lookupIdx m k with _ | v
    · rw [ho] at h
      simp at h
    · exact ⟨v, lookupIdx_mem ho⟩
  · rintro ⟨v, hv⟩
    exact lookupIdx_isSome_of_mem hv

/-! Claim C3: a row with no values is a no-op for `append_rows`. -/

/-- Claim C3: for every table state and every row whose value vector is
absent, `append_rows` on that single row leaves the dictionary, every
column's length and contents, the column index, and the row count
unchanged, and returns success. -/
theorem append_rows_novalues_noop (d : Dictionary) (t : Table) (row : Row)
    (h : row.values = none) :
    t.append_rows d [row] = (d, t, .ok ()) := by
  simp [Table.append_rows, h]

/-- Witness for C3 at a concrete input. -/
theorem append_rows_novalues_noop_witness :
    (Table.new 7).append_rows ⟨["x"]⟩ [{ values := none }] = (⟨["x"]⟩, Table.new 7, .ok ()) :=
  append_rows_novalues_noop ⟨["x"]⟩ (Table.new 7) { values := none } rfl

/-! Claim C1: characterization of `could_match_predicate`. -/

/-- Spec condition of C1 (field overlap): if the predicate has a field
restriction, at least one restricted symbol is a column of the table. -/
def fieldRestrictionCond (t : Table) (p : PartitionPredicate) : Prop :=
  ∀ fr, p.field_restriction = some fr →
    ∃ column_id, column_id ∈ fr ∧ (lookupIdx t.column_id_to_index column_id).isSome = true

/-- Spec condition of C1 (table-name): if the predicate has a table-name set,
the table's id is a member. -/
def tableNameCond (t : Table) (p : PartitionPredicate) : Prop :=
  ∀ s, p.table_name_predicate = some s → t.id ∈ s

/-- Spec condition of C1 (time overlap): if the predicate has a time range,
the time column resolves to an `i64` column holding at least one non-null
value in `[start, end)`. -/
def timeRangeCond (t : Table) (p : PartitionPredicate) : Prop :=
  ∀ r, p.range = some r →
    ∃ idx vals, lookupIdx t.column_id_to_index p.time_column_id = some idx ∧
      t.columns[idx]? = some (.I64 vals) ∧
      ∃ v : Int, some v ∈ vals ∧ r.start ≤ v ∧ v < r.end_

/-- Spec condition of C1 (required columns): the required-columns value is not
the `AtLeastOneMissing` sentinel, and a concrete set consists of keys of
the column index. -/
def requiredColumnsCond (t : Table) (p : PartitionPredicate) : Prop :=
  p.required_columns ≠ some .AtLeastOneMissing ∧
  ∀ s, p.required_columns = some (.Present s) →
    ∀ sym ∈ s, (lookupIdx t.column_id_to_index sym).isSome = true

theorem matches_column_selection_iff (t : Table) (sel : Option (List Nat)) :
    t.matches_column_selection sel = true ↔
      ∀ fr, sel = some fr →
        ∃ column_id, column_id ∈ fr ∧ (lookupIdx t.column_id_to_index column_id).isSome = true := by
  cases sel with
  | none => simp [Table.matches_column_selection]
  | some sel =>
    simp only [Table.matches_column_selection, List.any_eq_true, Option.some.injEq]
    constructor
    · rintro ⟨e, he, hc⟩ fr hfr
      subst hfr
      exact ⟨e.1, by simpa using hc, lookupIdx_isSome_of_mem (v := e.2) (by simpa using he)⟩
    · intro h
      obtain ⟨cid, hcid, hsome⟩ := h sel rfl
      obtain ⟨v, hv⟩ := (lookupIdx_isSome_iff _ _).mp hsome
      exact ⟨(cid, v), hv, by simpa using hcid⟩

theorem matches_table_name_predicate_iff (t : Table) (tn : Option (List Nat)) :
    t.matches_table_name_predicate tn = true ↔ ∀ s, tn = some s → t.id ∈ s := by
  cases tn with
  | none => simp [Table.matches_table_name_predicate]
  | some s => simp [Table.matches_table_name_predicate]

theorem isI64_eq_true_iff (c : Column) : c.isI64 = true ↔ ∃ vals, c = .I64 vals := by
  cases c <;> simp [Column.isI64]

theorem has_i64_range_err_of_not_i64 {c : Column} (h : c.isI64 = false) (lo hi : Int) :
    c.has_i64_range lo hi = .error (.i64RangeOnNonI64 c.type_description) := by
  cases c <;> simp_all [Column.has_i64_range, Column.isI64]

theorem matches_timestamp_predicate_ok_true_iff (t : Table) (p : PartitionPredicate) :
    t.matches_timestamp_predicate p = .ok true ↔ timeRangeCond t p := by
  cases hr : p.range with
  | none =>
    have hval : t.matches_timestamp_predicate p = .ok true := by
      unfold Table.matches_timestamp_predicate
      rw [hr]
    rw [hval]
    simp only [true_iff]
    intro r hr'
    rw [hr] at hr'
    cases hr'
  | some r =>
    cases hl : lookupIdx t.column_id_to_index p.time_column_id with
    | none =>
      have hval : t.matches_timestamp_predicate p = .panicked "invalid column id" := by
        unfold Table.matches_timestamp_predicate Table.column
        simp only [hr, hl]
      rw [hval]
      apply iff_of_false (by simp)
      intro h
      obtain ⟨idx, vals, hidx, -⟩ := h r hr
      rw [hl] at hidx
      cases hidx
    | some idx =>
      cases hc : t.columns[idx]? with
      | none =>
        have hval : t.matches_timestamp_predicate p = .panicked "index out of bounds" := by
          unfold Table.matches_timestamp_predicate Table.column
          simp only [hr, hl, hc]
        rw [hval]
        apply iff_of_false (by simp)
        intro h
        obtain ⟨idx', vals, hidx, hc', -⟩ := h r hr
        rw [hl] at hidx
        cases hidx
        rw [hc] at hc'
        cases hc'
      | some c =>
        cases hi : c.isI64 with
        | false =>
          have hval : t.matches_timestamp_predicate p =
              .err (.ColumnPredicateEvaluation p.time_column_id
                (.i64RangeOnNonI64 c.type_description)) := by
            unfold Table.matches_timestamp_predicate Table.column
            have hrange := has_i64_range_err_of_not_i64 hi r.start r.end_
            simp only [hr, hl, hc, hrange]
          rw [hval]
          apply iff_of_false (by simp)
          intro h
          obtain ⟨idx', vals, hidx, hc', -⟩ := h r hr
          rw [hl] at hidx
          cases hidx
          rw [hc] at hc'
          cases hc'
          simp [Column.isI64] at hi
        | true =>
          obtain ⟨vals, hvals⟩ := (isI64_eq_true_iff c).mp hi
          subst hvals
          have hval : t.matches_timestamp_predicate p =
              .ok (vals.any (fun o => o.elim false (fun v => decide (r.start ≤ v ∧ v < r.end_)))) := by
            unfold Table.matches_timestamp_predicate Table.column
            simp only [hr, hl, hc, Column.has_i64_range]
          rw [hval]
          constructor
          · intro h
            have hany : vals.any
                (fun o => o.elim false (fun v => decide (r.start ≤ v ∧ v < r.end_))) = true := by
              simpa using h
            rw [List.any_eq_true] at hany
            obtain ⟨o, ho, helim⟩ := hany
            intro r' hr'
            rw [hr] at hr'
            cases hr'
            refine ⟨idx, vals, hl, hc, ?_⟩
            cases o with
            | none => simp at helim
            | some v =>
              simp only [Option.elim, decide_eq_true_eq] at helim
              exact ⟨v, ho, helim⟩
          · intro h
            obtain ⟨idx', vals', hidx, hc', v, hv, h1, h2⟩ := h r hr
            rw [hl] at hidx
            cases hidx
            rw [hc] at hc'
            cases hc'
            have hany : vals.any
                (fun o => o.elim false (fun v => decide (r.start ≤ v ∧ v < r.end_))) = true := by
              rw [List.any_eq_true]
              exact ⟨some v, hv, by simp [h1, h2]⟩
            rw [hany]

theorem has_columns_iff (t : Table) (rc : Option PartitionIdSet) :
    t.has_columns rc = true ↔
      (rc ≠ some .AtLeastOneMissing ∧
        ∀ s, rc = some (.Present s) →
          ∀ sym ∈ s, (lookupIdx t.column_id_to_index sym).isSome = true) := by
  cases rc with
  | none => simp [Table.has_columns]
  | some pis =>
    cases pis with
    | AtLeastOneMissing => simp [Table.has_columns]
    | Present symbols => simp [Table.has_columns, List.all_eq_true]

/-- Claim C1: `could_match_predicate(p)` returns true if and only if the four
spec conditions (field overlap, table-name membership, time overlap,
required columns) all hold; in every other case it returns false, an
error, or — for an absent time column — a panic. -/
theorem could_match_predicate_iff (t : Table) (p : PartitionPredicate) :
    t.could_match_predicate p = .ok true ↔
      fieldRestrictionCond t p ∧ tableNameCond t p ∧ timeRangeCond t p ∧
        requiredColumnsCond t p := by
  unfold Table.could_match_predicate
  by_cases h1 : t.matches_column_selection p.field_restriction = true
  · by_cases h2 : t.matches_table_name_predicate p.table_name_predicate = true
    · rw [h1, h2]
      simp only [Bool.and_self, if_true]
      cases hts : t.matches_timestamp_predicate p with
      | ok tb =>
        have h3 := matches_timestamp_predicate_ok_true_iff t p
        rw [hts] at h3
        constructor
        · intro h
          simp only [RunResult.ok.injEq, Bool.and_eq_true] at h
          obtain ⟨htb, hhc⟩ := h
          exact ⟨(matches_column_selection_iff t _).mp h1,
            (matches_table_name_predicate_iff t _).mp h2,
            h3.mp (by rw [htb]), (has_columns_iff t _).mp hhc⟩
        · rintro ⟨-, -, hc3, hc4⟩
          have htb : tb = true := by
            have := h3.mpr hc3
            simpa using this
          have hhc := (has_columns_iff t _).mpr hc4
          rw [htb, hhc]
          rfl
      | err e =>
        apply iff_of_false (by simp)
        rintro ⟨-, -, hc3, -⟩
        have := (matches_timestamp_predicate_ok_true_iff t p).mpr hc3
        rw [hts] at this
        cases this
      | panicked m =>
        apply iff_of_false (by simp)
        rintro ⟨-, -, hc3, -⟩
        have := (matches_timestamp_predicate_ok_true_iff t p).mpr hc3
        rw [hts] at this
        cases this
    · have h2' : t.matches_table_name_predicate p.table_name_predicate = false := by
        simpa using h2
      rw [h2']
      simp only [Bool.and_false, if_false]
      apply iff_of_false (by simp)
      rintro ⟨-, hc2, -, -⟩
      exact h2 ((matches_table_name_predicate_iff t _).mpr hc2)
  · have h1' : t.matches_column_selection p.field_restriction = false := by
      simpa using h1
    rw [h1']
    simp only [Bool.false_and, if_false]
    apply iff_of_false (by simp)
    rintro ⟨hc1, -, -, -⟩
    exact h1 ((matches_column_selection_iff t _).mpr hc1)

/-! Claim C6: failure modes of the time check inside `could_match_predicate`. -/

/-- Fixture: a predicate carrying only a time range (time column symbol 0). -/
def predTimeOnly : PartitionPredicate :=
  { table_name_predicate := none, field_restriction := none, time_column_id := 0,
    range := some ⟨100, 200⟩, required_columns := none, filter_expr := none }

/-- Counterexample for C6: on a table without the time column,
`could_match_predicate` panics at `expect("invalid column id")` instead of
returning an error value. -/
theorem could_match_predicate_absent_time_panics :
    predTimeOnly.range = some ⟨100, 200⟩ ∧
    lookupIdx (Table.new 0).column_id_to_index predTimeOnly.time_column_id = none ∧
    (Table.new 0).could_match_predicate predTimeOnly = .panicked "invalid column id" ∧
    ∀ e : Error, (Table.new 0).could_match_predicate predTimeOnly ≠ .err e := by
  refine ⟨by decide, by decide, by decide, ?_⟩
  intro e h
  have h2 : (Table.new 0).could_match_predicate predTimeOnly = .panicked "invalid column id" := by
    decide
  rw [h2] at h
  cases h

/-- Amended claim C6: with a time range, once the field and table-name checks
pass, an absent time column makes `could_match_predicate` panic (it does
not return an error), while a present column of a non-`i64` kind is
reported as a `ColumnPredicateEvaluation` error (not `false`, no panic). -/
theorem could_match_predicate_time_failure (t : Table) (p : PartitionPredicate)
    (r : TimestampRange) (hr : p.range = some r)
    (h1 : t.matches_column_selection p.field_restriction = true)
    (h2 : t.matches_table_name_predicate p.table_name_predicate = true) :
    (lookupIdx t.column_id_to_index p.time_column_id = none →
      t.could_match_predicate p = .panicked "invalid column id") ∧
    (∀ idx c, lookupIdx t.column_id_to_index p.time_column_id = some idx →
      t.columns[idx]? = some c → c.isI64 = false →
      t.could_match_predicate p =
        .err (.ColumnPredicateEvaluation p.time_column_id
          (.i64RangeOnNonI64 c.type_description))) := by
  constructor
  · intro hl
    have hts : t.matches_timestamp_predicate p = .panicked "invalid column id" := by
      unfold Table.matches_timestamp_predicate Table.column
      simp only [hr, hl]
    unfold Table.could_match_predicate
    rw [h1, h2]
    simp only [Bool.and_self, if_true, hts]
  · intro idx c hl hc hi
    have hts : t.matches_timestamp_predicate p =
        .err (.ColumnPredicateEvaluation p.time_column_id
          (.i64RangeOnNonI64 c.type_description)) := by
      unfold Table.matches_timestamp_predicate Table.column
      have hrange := has_i64_range_err_of_not_i64 hi r.start r.end_
      simp only [hr, hl, hc, hrange]
    unfold Table.could_match_predicate
    rw [h1, h2]
    simp only [Bool.and_self, if_true, hts]

/-- Witness for the amended C6 at a concrete input (absent time column, and a
table whose time symbol resolves to a Tag column for the error case). -/
theorem could_match_predicate_time_failure_witness :
    ((lookupIdx (Table.new 0).column_id_to_index predTimeOnly.time_column_id = none →
      (Table.new 0).could_match_predicate predTimeOnly = .panicked "invalid column id") ∧
    (∀ idx c, lookupIdx (Table.new 0).column_id_to_index predTimeOnly.time_column_id = some idx →
      (Table.new 0).columns[idx]? = some c → c.isI64 = false →
      (Table.new 0).could_match_predicate predTimeOnly =
        .err (.ColumnPredicateEvaluation predTimeOnly.time_column_id
          (.i64RangeOnNonI64 c.type_description)))) ∧
    { id := 1, column_id_to_index := [(0, 0)],
      columns := [Column.Tag []] : Table }.could_match_predicate predTimeOnly =
      .err (.ColumnPredicateEvaluation 0 (.i64RangeOnNonI64 "tag")) := by
  refine ⟨could_match_predicate_time_failure (Table.new 0) predTimeOnly ⟨100, 200⟩ rfl
    (by decide) (by decide), ?_⟩
  exact (could_match_predicate_time_failure
    { id := 1, column_id_to_index := [(0, 0)], columns := [Column.Tag []] }
    predTimeOnly ⟨100, 200⟩ rfl (by decide) (by decide)).2 0 (Column.Tag [])
    (by decide) (by decide) (by decide)

/-! Claim C10: `tag_values_plan` under a field restriction. -/

/-- Fixture: a table whose single column symbol (5) is unknown to the empty
dictionary. -/
def tableBadDict : Table :=
  { id := 0, column_id_to_index := [(5, 0)], columns := [.I64 []] }

/-- Fixture: a partition with an empty dictionary. -/
def partEmptyDict : Partition := { key := "p", dictionary := ⟨[]⟩ }

/-- Fixture: a predicate with a field restriction. -/
def predFieldRestricted : PartitionPredicate :=
  { table_name_predicate := none, field_restriction := some [1], time_column_id := 0,
    range := none, required_columns := none, filter_expr := none }

/-- Counterexample for C10: with a field restriction, `tag_values_plan` can
still return an error result (a materialization failure surfaces before
the assertion), so it does not always panic. -/
theorem tag_values_plan_err_before_assert :
    predFieldRestricted.has_field_restriction = true ∧
    Table.tag_values_plan tableBadDict "state" predFieldRestricted partEmptyDict =
      .err (.ColumnIdNotFoundInDictionary 5 "p") ∧
    ∀ m : String,
      Table.tag_values_plan tableBadDict "state" predFieldRestricted partEmptyDict ≠
        .panicked m := by
  refine ⟨by decide, by decide, ?_⟩
  intro m h
  have h2 : Table.tag_values_plan tableBadDict "state" predFieldRestricted partEmptyDict =
      .err (.ColumnIdNotFoundInDictionary 5 "p") := by decide
  rw [h2] at h
  cases h

/-- Amended claim C10: with a field restriction, `tag_values_plan` never
returns a plan; when materialization succeeds it hits the defensive
`assert!` and panics before completing the plan, and a materialization
failure is propagated as that error instead. -/
theorem tag_values_plan_field_restriction (t : Table) (column_name : String)
    (p : PartitionPredicate) (part : Partition)
    (h : p.has_field_restriction = true) :
    (∀ plan, t.tag_values_plan column_name p part ≠ .ok plan) ∧
    (∀ data, t.all_to_arrow part = .ok data →
      t.tag_values_plan column_name p part =
        .panicked "assertion failed: !partition_predicate.has_field_restriction()") := by
  unfold Table.tag_values_plan
  cases hd : t.all_to_arrow part with
  | ok data =>
    rw [h]
    constructor
    · intro plan hplan
      simp at hplan
    · intro data' hd'
      rfl
  | err e =>
    constructor
    · intro plan hplan
      simp at hplan
    · intro data hd'
      cases hd'
  | panicked m =>
    constructor
    · intro plan hplan
      simp at hplan
    · intro data hd'
      cases hd'

/-- Witness for the amended C10: an empty table materializes successfully, so
the assertion fires. -/
theorem tag_values_plan_field_restriction_witness :
    (Table.new 0).tag_values_plan "state" predFieldRestricted partEmptyDict =
      .panicked "assertion failed: !partition_predicate.has_field_restriction()" :=
  (tag_values_plan_field_restriction (Table.new 0) "state" predFieldRestricted partEmptyDict
    (by decide)).2 [] (by decide)

/-! Order lemmas for the lexicographic string comparison. -/

theorem charListLe_total : ∀ as bs, charListLe as bs = true ∨ charListLe bs as = true := by
  intro as
  induction as with
  | nil => intro bs; left; simp [charListLe]
  | cons a as ih =>
    intro bs
    cases bs with
    | nil => right; simp [charListLe]
    | cons b bs' =>
      by_cases hab : a = b
      · subst hab
        rcases ih bs' with h | h
        · left; simpa [charListLe] using h
        · right; simpa [charListLe] using h
      · rcases lt_or_gt_of_ne hab with h | h
        · left; simp [charListLe, hab, h]
        · right; simp [charListLe, Ne.symm hab, h]

theorem charListLe_trans :
    ∀ as bs cs, charListLe as bs = true → charListLe bs cs = true → charListLe as cs = true := by
  intro as
  induction as with
  | nil => intro bs cs h1 h2; simp [charListLe]
  | cons a as ih =>
    intro bs cs h1 h2
    cases bs with
    | nil => simp [charListLe] at h1
    | cons b bs' =>
      cases cs with
      | nil => simp [charListLe] at h2
      | cons c cs' =>
        by_cases hab : a = b <;> by_cases hbc : b = c
        · subst hab; subst hbc
          simp only [charListLe, if_pos rfl] at h1 h2 ⊢
          exact ih bs' cs' h1 h2
        · subst hab
          simp only [charListLe, if_pos rfl, if_neg hbc] at h2 ⊢
          exact h2
        · subst hbc
          simp only [charListLe, if_pos rfl, if_neg hab] at h1 ⊢
          exact h1
        · simp only [charListLe, if_neg hab, if_neg hbc, decide_eq_true_eq] at h1 h2
          have hac : a < c := lt_trans h1 h2
          simp [charListLe, ne_of_lt hac, hac]

theorem sLe_total (a b : String) : sLe a b = true ∨ sLe b a = true :=
  charListLe_total a.data b.data

theorem sLe_trans {a b c : String} (h1 : sLe a b = true) (h2 : sLe b c = true) :
    sLe a c = true :=
  charListLe_trans a.data b.data c.data h1 h2

theorem sorted_insertionSort_sLe (l : List String) :
    List.Sorted (fun a b => sLe a b = true) (List.insertionSort (fun a b => sLe a b) l) := by
  haveI h1 : IsTotal String (fun a b => sLe a b = true) := ⟨sLe_total⟩
  haveI h2 : IsTrans String (fun a b => sLe a b = true) := ⟨fun a b c => sLe_trans⟩
  exact List.sorted_insertionSort _ l

theorem charListLt_irrefl : ∀ as, charListLt as as = false := by
  intro as
  induction as with
  | nil => rfl
  | cons a as ih => simpa [charListLt] using ih

theorem sLt_irrefl (a : String) : sLt a a = false :=
  charListLt_irrefl a.data

theorem nodup_of_sorted_sLt {T : List String}
    (h : List.Sorted (fun a b => sLt a b = true) T) : T.Nodup := by
  refine h.imp ?_
  intro a b hab heq
  subst heq
  rw [sLt_irrefl] at hab
  cases hab

/-! Claim C7: the projection of `field_names_plan`. -/

/-- Claim-side description of the field-and-time name collection of C7: the
names of the non-Tag columns that pass the field restriction or are the
time column, in column-index order. -/
def specFieldTimeNames (t : Table) (p : PartitionPredicate) (part : Partition) : List String :=
  t.column_id_to_index.filterMap (fun e =>
    match t.columns[e.2]?, part.dictionary.lookup_id e.1 with
    | some c, some name =>
      if c.isTag then none
      else if p.should_include_field e.1 || p.is_time_column e.1 then some name
      else none
    | _, _ => none)

theorem fieldTimeNamesAux_cons (t : Table) (p : PartitionPredicate) (part : Partition)
    (cid cidx : Nat) (rest : List (Nat × Nat)) :
    fieldTimeNamesAux t p part ((cid, cidx) :: rest) =
      match t.columns[cidx]? with
      | none => none
      | some c =>
        if c.isTag then fieldTimeNamesAux t p part rest
        else if p.should_include_field cid || p.is_time_column cid then
          match part.dictionary.lookup_id cid with
          | none => none
          | some name =>
            match fieldTimeNamesAux t p part rest with
            | none => none
            | some rest' => some (name :: rest')
        else fieldTimeNamesAux t p part rest := by
  simp only [fieldTimeNamesAux]
  cases hcc : t.columns[cidx]? with
  | none => rfl
  | some c => cases c <;> rfl

theorem fieldTimeNamesAux_eq (t : Table) (p : PartitionPredicate) (part : Partition) :
    ∀ (m : List (Nat × Nat)) (l : List String), fieldTimeNamesAux t p part m = some l →
      l = m.filterMap (fun e =>
        match t.columns[e.2]?, part.dictionary.lookup_id e.1 with
        | some c, some name =>
          if c.isTag then none
          else if p.should_include_field e.1 || p.is_time_column e.1 then some name
          else none
        | _, _ => none) := by
  intro m
  induction m with
  | nil =>
    intro l h
    simp only [fieldTimeNamesAux] at h
    cases h
    rfl
  | cons e rest ih =>
    obtain ⟨cid, cidx⟩ := e
    intro l h
    rw [fieldTimeNamesAux_cons] at h
    rw [List.filterMap_cons]
    cases hc : t.columns[cidx]? with
    | none =>
      rw [hc] at h
      cases h
    | some c =>
      simp only [hc] at h ⊢
      by_cases hTag : c.isTag = true
      · simp only [hTag, if_true] at h
        cases hlk : part.dictionary.lookup_id cid with
        | none =>
          simp only [hlk]
          exact ih l h
        | some name =>
          simp only [hlk, hTag, if_true]
          exact ih l h
      · have hTag' : c.isTag = false := by simpa using hTag
        simp only [hTag', Bool.false_eq_true, if_false] at h
        by_cases hcond : (p.should_include_field cid || p.is_time_column cid) = true
        · simp only [hcond, if_true] at h
          cases hlk : part.dictionary.lookup_id cid with
          | none => rw [hlk] at h; cases h
          | some name =>
            rw [hlk] at h
            cases ha : fieldTimeNamesAux t p part rest with
            | none => rw [ha] at h; cases h
            | some rest' =>
              rw [ha] at h
              cases h
              simp only [hlk, hTag', Bool.false_eq_true, if_false, hcond, if_true]
              rw [ih rest' ha]
        · have hcond' : (p.should_include_field cid || p.is_time_column cid) = false := by
            simpa using hcond
          simp only [hcond', Bool.false_eq_true, if_false] at h
          cases hlk : part.dictionary.lookup_id cid with
          | none =>
            simp only [hlk]
            exact ih l h
          | some name =>
            simp only [hlk, hTag', Bool.false_eq_true, if_false, hcond', if_false]
            exact ih l h

/-- Fixture for C7: a table with a non-tag column `zz` sorting after `time`. -/
def tableZZ : Table :=
  { id := 0, column_id_to_index := [(0, 0), (1, 1)], columns := [.F64 [], .I64 []] }

/-- Fixture for C7: partition interning `zz` and `time`. -/
def partZZ : Partition := { key := "p", dictionary := ⟨["zz", "time"]⟩ }

/-- Fixture for C7/C8: a predicate with no restrictions (time symbol 1). -/
def predPlain1 : PartitionPredicate :=
  { table_name_predicate := none, field_restriction := none, time_column_id := 1,
    range := none, required_columns := none, filter_expr := none }

/-- Counterexample for C7: with a field column named `zz`, the projection of
`field_names_plan` is `[time, zz]` — time is sorted together with the
field names, not appended last as the claim states. -/
theorem field_names_plan_time_not_last :
    Table.field_names_plan tableZZ predPlain1 partZZ =
      .ok (.Projection [Expr.Column "time", Expr.Column "zz"]
        (.InMemoryScan [("time", .int64 []), ("zz", .float64 [])])) ∧
    [Expr.Column "time", Expr.Column "zz"] ≠
      (["zz"].map Expr.Column) ++ [Expr.Column "time"] := by
  constructor
  · decide
  · decide

/-- Amended claim C7: the projection list of `field_names_plan` consists of
the names of the non-Tag columns passing the field restriction together
with the time column, sorted lexicographically as one list (the time
column takes its lexicographic position; it is not placed last). -/
theorem field_names_plan_projection (t : Table) (p : PartitionPredicate) (part : Partition)
    (plan : LogicalPlan) (h : t.field_names_plan p part = .ok plan) :
    ∃ ns inner, plan = .Projection (ns.map Expr.Column) inner ∧
      t.field_and_time_column_names p part = some ns ∧
      List.Sorted (fun a b => sLe a b = true) ns ∧
      ns.Perm (specFieldTimeNames t p part) := by
  unfold Table.field_names_plan at h
  cases hd : t.all_to_arrow part with
  | err e => rw [hd] at h; cases h
  | panicked m => rw [hd] at h; cases h
  | ok data =>
    simp only [hd] at h
    cases hf : t.field_and_time_column_names p part with
    | none => rw [hf] at h; cases h
    | some ns =>
      simp only [hf] at h
      cases h
      refine ⟨ns, add_datafusion_predicate (.InMemoryScan data) p, rfl, rfl, ?_, ?_⟩
      · unfold Table.field_and_time_column_names at hf
        cases ha : fieldTimeNamesAux t p part t.column_id_to_index with
        | none => rw [ha] at hf; cases hf
        | some l =>
          rw [ha] at hf
          simp only [Option.map_some'] at hf
          cases hf
          exact sorted_insertionSort_sLe l
      · unfold Table.field_and_time_column_names at hf
        cases ha : fieldTimeNamesAux t p part t.column_id_to_index with
        | none => rw [ha] at hf; cases hf
        | some l =>
          rw [ha] at hf
          simp only [Option.map_some'] at hf
          cases hf
          have hperm := List.perm_insertionSort (fun a b => sLe a b = true) l
          have hspec := fieldTimeNamesAux_eq t p part t.column_id_to_index l ha
          unfold specFieldTimeNames
          rw [← hspec]
          exact hperm

/-- Witness for the amended C7 at a concrete input. -/
theorem field_names_plan_projection_witness :
    ∃ ns inner,
      (LogicalPlan.Projection [Expr.Column "time", Expr.Column "zz"]
          (.InMemoryScan [("time", .int64 []), ("zz", .float64 [])])) =
        .Projection (ns.map Expr.Column) inner ∧
      tableZZ.field_and_time_column_names predPlain1 partZZ = some ns ∧
      List.Sorted (fun a b => sLe a b = true) ns ∧
      ns.Perm (specFieldTimeNames tableZZ predPlain1 partZZ) :=
  field_names_plan_projection tableZZ predPlain1 partZZ
    (.Projection [Expr.Column "time", Expr.Column "zz"]
      (.InMemoryScan [("time", .int64 []), ("zz", .float64 [])]))
    (by decide)

/-! Claim C8: the name lists of `series_set_plan`. -/

/-- Claim-side description of C8's tag columns: the names of exactly the
Tag-kind columns, excluding time, in column-index order. -/
def specTagNames (t : Table) (p : PartitionPredicate) (part : Partition) : List String :=
  t.column_id_to_index.filterMap (fun e =>
    match part.dictionary.lookup_id e.1, t.columns[e.2]? with
    | some name, some c =>
      if name = TIME_COLUMN_NAME then none
      else if c.isTag then some name else none
    | _, _ => none)

/-- Claim-side description of C8's field columns: the names of exactly the
non-Tag, non-time columns passing the field restriction, in column-index
order. -/
def specFieldNames (t : Table) (p : PartitionPredicate) (part : Partition) : List String :=
  t.column_id_to_index.filterMap (fun e =>
    match part.dictionary.lookup_id e.1, t.columns[e.2]? with
    | some name, some c =>
      if name = TIME_COLUMN_NAME then none
      else if c.isTag then none
      else if p.should_include_field e.1 then some name else none
    | _, _ => none)

theorem tagFieldNamesAux_cons (t : Table) (p : PartitionPredicate) (part : Partition)
    (cid cidx : Nat) (rest : List (Nat × Nat)) :
    tagFieldNamesAux t p part ((cid, cidx) :: rest) =
      match part.dictionary.lookup_id cid with
      | none => none
      | some name =>
        match tagFieldNamesAux t p part rest with
        | none => none
        | some (tag_columns, field_columns) =>
          if name = TIME_COLUMN_NAME then some (tag_columns, field_columns)
          else
            match t.columns[cidx]? with
            | none => none
            | some c =>
              if c.isTag then some (name :: tag_columns, field_columns)
              else if p.should_include_field cid then
                some (tag_columns, name :: field_columns)
              else some (tag_columns, field_columns) := by
  simp only [tagFieldNamesAux]
  cases hlk : part.dictionary.lookup_id cid with
  | none => rfl
  | some name =>
    cases ha : tagFieldNamesAux t p part rest with
    | none => rfl
    | some pr =>
      obtain ⟨tl, fl⟩ := pr
      by_cases hn : name = TIME_COLUMN_NAME
      · simp only [if_pos hn]
      · simp only [if_neg hn]
        cases hc : t.columns[cidx]? with
        | none => rfl
        | some c => cases c <;> rfl

theorem tagFieldNamesAux_eq (t : Table) (p : PartitionPredicate) (part : Partition) :
    ∀ (m : List (Nat × Nat)) (tl fl : List String),
      tagFieldNamesAux t p part m = some (tl, fl) →
      tl = m.filterMap (fun e =>
        match part.dictionary.lookup_id e.1, t.columns[e.2]? with
        | some name, some c =>
          if name = TIME_COLUMN_NAME then none
          else if c.isTag then some name else none
        | _, _ => none) ∧
      fl = m.filterMap (fun e =>
        match part.dictionary.lookup_id e.1, t.columns[e.2]? with
        | some name, some c =>
          if name = TIME_COLUMN_NAME then none
          else if c.isTag then none
          else if p.should_include_field e.1 then some name else none
        | _, _ => none) := by
  intro m
  induction m with
  | nil =>
    intro tl fl h
    simp only [tagFieldNamesAux] at h
    cases h
    exact ⟨rfl, rfl⟩
  | cons e rest ih =>
    obtain ⟨cid, cidx⟩ := e
    intro tl fl h
    rw [tagFieldNamesAux_cons] at h
    rw [List.filterMap_cons, List.filterMap_cons]
    cases hlk : part.dictionary.lookup_id cid with
    | none => simp only [hlk] at h; cases h
    | some name =>
      simp only [hlk] at h
      cases ha : tagFieldNamesAux t p part rest with
      | none => simp only [ha] at h; cases h
      | some pr =>
        obtain ⟨tl', fl'⟩ := pr
        simp only [ha] at h
        obtain ⟨ih1, ih2⟩ := ih tl' fl' ha
        by_cases hn : name = TIME_COLUMN_NAME
        · rw [if_pos hn] at h
          cases h
          cases hc : t.columns[cidx]? with
          | none => simp only [hlk, hc]; exact ⟨ih1, ih2⟩
          | some c => simp only [hlk, hc, if_pos hn]; exact ⟨ih1, ih2⟩
        · rw [if_neg hn] at h
          cases hc : t.columns[cidx]? with
          | none => simp only [hc] at h; cases h
          | some c =>
            simp only [hc] at h
            by_cases hTag : c.isTag = true
            · simp only [hTag, if_true] at h
              cases h
              simp only [hlk, hc, if_neg hn, hTag, if_true]
              exact ⟨by rw [ih1], ih2⟩
            · have hTag' : c.isTag = false := by simpa using hTag
              simp only [hTag', Bool.false_eq_true, if_false] at h
              by_cases hsi : p.should_include_field cid = true
              · simp only [hsi, if_true] at h
                cases h
                simp only [hlk, hc, if_neg hn, hTag', Bool.false_eq_true, if_false, hsi,
                  if_true]
                exact ⟨ih1, by rw [ih2]⟩
              · have hsi' : p.should_include_field cid = false := by simpa using hsi
                simp only [hsi', Bool.false_eq_true, if_false] at h
                cases h
                simp only [hlk, hc, if_neg hn, hTag', Bool.false_eq_true, if_false, hsi',
                  if_false]
                exact ⟨ih1, ih2⟩

/-- Claim C8: the `SeriesSetPlan` returned by `series_set_plan` carries
`tag_columns` equal to exactly the Tag-kind columns excluding time and
`field_columns` equal to exactly the non-Tag, non-time columns passing the
field restriction, each in ascending lexicographic order. -/
theorem series_set_plan_columns (t : Table) (p : PartitionPredicate) (part : Partition)
    (ssp : SeriesSetPlan) (h : t.series_set_plan p part = .ok ssp) :
    List.Sorted (fun a b => sLe a b = true) ssp.tag_columns ∧
    ssp.tag_columns.Perm (specTagNames t p part) ∧
    List.Sorted (fun a b => sLe a b = true) ssp.field_columns ∧
    ssp.field_columns.Perm (specFieldNames t p part) := by
  unfold Table.series_set_plan Table.series_set_plan_impl at h
  cases hnm : part.dictionary.lookup_id t.id with
  | none => simp only [hnm] at h; cases h
  | some nm =>
    simp only [hnm] at h
    cases htf : t.tag_and_field_column_names p part with
    | none => simp only [htf] at h; cases h
    | some pr =>
      obtain ⟨tl, fl⟩ := pr
      simp only [htf] at h
      cases hd : t.all_to_arrow part with
      | err e => simp only [hd] at h; cases h
      | panicked m => simp only [hd] at h; cases h
      | ok data =>
        simp only [hd] at h
        cases h
        unfold Table.tag_and_field_column_names at htf
        cases ha : tagFieldNamesAux t p part t.column_id_to_index with
        | none => rw [ha] at htf; cases htf
        | some pr' =>
          obtain ⟨tl₀, fl₀⟩ := pr'
          rw [ha] at htf
          obtain ⟨htl, hfl⟩ := Prod.mk.injEq .. ▸ (Option.some.inj htf)
          obtain ⟨hspec1, hspec2⟩ := tagFieldNamesAux_eq t p part t.column_id_to_index tl₀ fl₀ ha
          subst htl
          subst hfl
          refine ⟨sorted_insertionSort_sLe tl₀, ?_, sorted_insertionSort_sLe fl₀, ?_⟩
          · have hperm := List.perm_insertionSort (fun a b => sLe a b = true) tl₀
            unfold specTagNames
            rw [← hspec1]
            exact hperm
          · have hperm := List.perm_insertionSort (fun a b => sLe a b = true) fl₀
            unfold specFieldNames
            rw [← hspec2]
            exact hperm

/-- Fixture for C8: a table with a tag column `state`, a field `temp`, and
the `time` column. -/
def tableH2O : Table :=
  { id := 0, column_id_to_index := [(1, 0), (2, 1), (3, 2)],
    columns := [.Tag [], .F64 [], .I64 []] }

/-- Fixture for C8: partition interning the names of `tableH2O`. -/
def partH2O : Partition := { key := "p", dictionary := ⟨["h2o", "state", "temp", "time"]⟩ }

/-- Fixture for C8: an unrestricted predicate whose time symbol is 3. -/
def predPlain3 : PartitionPredicate :=
  { table_name_predicate := none, field_restriction := none, time_column_id := 3,
    range := none, required_columns := none, filter_expr := none }

/-- Fixture for C8: the series set plan built from `tableH2O`. -/
def sspH2O : SeriesSetPlan :=
  { table_name := "h2o",
    plan := .Projection [Expr.Column "state", Expr.Column "temp", Expr.Column "time"]
      (.Sort [.SortExpr (.Column "state") true true, .SortExpr (.Column "time") true true]
        (.InMemoryScan [("state", .utf8 []), ("temp", .float64 []), ("time", .int64 [])])),
    tag_columns := ["state"],
    field_columns := ["temp"] }

/-- Witness for C8 at a concrete input. -/
theorem series_set_plan_columns_witness :
    List.Sorted (fun a b => sLe a b = true) sspH2O.tag_columns ∧
    sspH2O.tag_columns.Perm (specTagNames tableH2O predPlain3 partH2O) ∧
    List.Sorted (fun a b => sLe a b = true) sspH2O.field_columns ∧
    sspH2O.field_columns.Perm (specFieldNames tableH2O predPlain3 partH2O) :=
  series_set_plan_columns tableH2O predPlain3 partH2O sspH2O (by decide)

/-! Claims C4/C5: `reorder_prefix`. -/

theorem findColumnIndex_eq_none_iff (pc : String) :
    ∀ l : List String, findColumnIndex pc l = none ↔ pc ∉ l := by
  intro l
  induction l with
  | nil => simp [findColumnIndex]
  | cons c rest ih =>
    by_cases h : pc = c
    · simp [findColumnIndex, h]
    · simp [findColumnIndex, h, Option.map_eq_none', ih]

theorem findColumnIndex_isSome_of_mem {pc : String} {l : List String} (h : pc ∈ l) :
    ∃ i, findColumnIndex pc l = some i := by
  rcases hf : findColumnIndex pc l with _ | i
  · exact absurd ((findColumnIndex_eq_none_iff pc l).mp hf) (by simp [h])
  · exact ⟨i, rfl⟩

theorem findColumnIndex_getElem {pc : String} :
    ∀ {l : List String} {i : Nat}, findColumnIndex pc l = some i →
      i < l.length ∧ l[i]? = some pc := by
  intro l
  induction l with
  | nil => intro i h; simp [findColumnIndex] at h
  | cons c rest ih =>
    intro i h
    by_cases hc : pc = c
    · simp only [findColumnIndex, if_pos hc] at h
      cases h
      simp [hc]
    · simp only [findColumnIndex, if_neg hc, Option.map_eq_some'] at h
      obtain ⟨j, hj, hji⟩ := h
      obtain ⟨hlt, hget⟩ := ih hj
      subst hji
      constructor
      · simpa using hlt
      · simpa using hget

theorem findColumnIndex_inj {pc pc' : String} {l : List String} {i : Nat}
    (h1 : findColumnIndex pc l = some i) (h2 : findColumnIndex pc' l = some i) :
    pc = pc' := by
  have g1 := (findColumnIndex_getElem h1).2
  have g2 := (findColumnIndex_getElem h2).2
  rw [g1] at g2
  exact Option.some.inj g2.symm ▸ (Option.some.inj g2).symm ▸ rfl

theorem findColumnIndex_of_getElem {pc : String} :
    ∀ {l : List String} {i : Nat}, l.Nodup → l[i]? = some pc →
      findColumnIndex pc l = some i := by
  intro l
  induction l with
  | nil => intro i _ h; simp at h
  | cons c rest ih =>
    intro i hnd h
    cases i with
    | zero =>
      simp only [List.getElem?_cons_zero, Option.some.injEq] at h
      simp [findColumnIndex, h.symm]
    | succ j =>
      simp only [List.getElem?_cons_succ] at h
      have hmem : pc ∈ rest := List.getElem?_mem h
      have hne : pc ≠ c := by
        intro he
        subst he
        exact (List.nodup_cons.mp hnd).1 hmem
      simp [findColumnIndex, hne, ih (List.Nodup.of_cons hnd) h]

/-- Positions in `tag_columns` selected by the requested prefix, in prefix
order. -/
def idxsOf (T : List String) (P : List String) : List Nat :=
  P.map (fun pc => (findColumnIndex pc T).getD 0)

/-- Marking loop over the used set. -/
def markUsed (used : List Bool) (idxs : List Nat) : List Bool :=
  idxs.foldl (fun u i => u.set i true) used

theorem getD_set_self {l : List Bool} {i : Nat} (b : Bool) (h : i < l.length) :
    (l.set i b).getD i false = b := by
  rw [List.getD_eq_getElem?_getD, List.getElem?_set_self (by simpa using h)]
  rfl

theorem getD_set_ne {l : List Bool} {i j : Nat} (b : Bool) (h : i ≠ j) :
    (l.set i b).getD j false = l.getD j false := by
  rw [List.getD_eq_getElem?_getD, List.getElem?_set_ne h, ← List.getD_eq_getElem?_getD]

theorem markUsed_length (idxs : List Nat) :
    ∀ used : List Bool, (markUsed used idxs).length = used.length := by
  induction idxs with
  | nil => intro used; rfl
  | cons i rest ih =>
    intro used
    show (markUsed (used.set i true) rest).length = used.length
    rw [ih, List.length_set]

theorem markUsed_getD_true_iff (idxs : List Nat) :
    ∀ (used : List Bool), (∀ i ∈ idxs, i < used.length) → ∀ j,
      ((markUsed used idxs).getD j false = true ↔ j ∈ idxs ∨ used.getD j false = true) := by
  induction idxs with
  | nil => intro used _ j; simp [markUsed]
  | cons i rest ih =>
    intro used hlt j
    have hstep : markUsed used (i :: rest) = markUsed (used.set i true) rest := rfl
    rw [hstep, ih (used.set i true)
      (fun x hx => by rw [List.length_set]; exact hlt x (List.mem_cons_of_mem _ hx))]
    by_cases hij : j = i
    · subst hij
      rw [getD_set_self true (hlt j (List.mem_cons_self ..))]
      simp
    · rw [getD_set_ne true (Ne.symm hij)]
      simp [List.mem_cons, hij]

theorem getD_replicate_false (n j : Nat) : (List.replicate n false).getD j false = false := by
  rw [List.getD_eq_getElem?_getD, List.getElem?_replicate]
  by_cases h : j < n <;> simp [h]

theorem buildPrefixMap_append (T : List String) :
    ∀ (P₁ P₂ : List String) (used : List Bool),
    (∀ pc ∈ P₁, pc ∈ T) → P₁.Nodup →
    (∀ pc ∈ P₁, used.getD ((findColumnIndex pc T).getD 0) false = false) →
    buildPrefixMap T (P₁ ++ P₂) used =
      (match buildPrefixMap T P₂ (markUsed used (idxsOf T P₁)) with
       | .ok (pm, u) => .ok (idxsOf T P₁ ++ pm, u)
       | .error e => .error e) := by
  intro P₁
  induction P₁ with
  | nil =>
    intro P₂ used _ _ _
    have hm : markUsed used (idxsOf T []) = used := rfl
    rw [List.nil_append, hm]
    cases h : buildPrefixMap T P₂ used with
    | ok pr =>
      obtain ⟨pm, u⟩ := pr
      simp [idxsOf]
    | error e => simp [idxsOf]
  | cons pc rest ih =>
    intro P₂ used hmem hnd hfree
    have hpcT : pc ∈ T := hmem pc (List.mem_cons_self ..)
    obtain ⟨i, hfind⟩ := findColumnIndex_isSome_of_mem hpcT
    have hgetD : (findColumnIndex pc T).getD 0 = i := by rw [hfind]; rfl
    have hused : used.getD i false = false := by
      rw [← hgetD]
      exact hfree pc (List.mem_cons_self ..)
    have hidxs : idxsOf T (pc :: rest) = i :: idxsOf T rest := by
      simp [idxsOf, hgetD]
    have hmark : markUsed used (i :: idxsOf T rest) =
        markUsed (used.set i true) (idxsOf T rest) := rfl
    have hfree' : ∀ pc' ∈ rest,
        (used.set i true).getD ((findColumnIndex pc' T).getD 0) false = false := by
      intro pc' hpc'
      obtain ⟨i', hfind'⟩ := findColumnIndex_isSome_of_mem (hmem pc' (List.mem_cons_of_mem _ hpc'))
      have hii : i ≠ i' := by
        intro he
        subst he
        have : pc = pc' := findColumnIndex_inj hfind hfind'
        subst this
        exact (List.nodup_cons.mp hnd).1 hpc'
      rw [hfind']
      show (used.set i true).getD i' false = false
      rw [getD_set_ne true hii]
      have := hfree pc' (List.mem_cons_of_mem _ hpc')
      rwa [hfind'] at this
    have hih := ih P₂ (used.set i true)
      (fun q hq => hmem q (List.mem_cons_of_mem _ hq)) (List.Nodup.of_cons hnd) hfree'
    rw [List.cons_append]
    simp only [buildPrefixMap, hfind, hused, Bool.false_eq_true, if_false]
    rw [hih, hidxs, hmark]
    cases hx : buildPrefixMap T P₂ (markUsed (used.set i true) (idxsOf T rest)) with
    | ok pr =>
      obtain ⟨pm, u⟩ := pr
      simp
    | error e => simp

theorem buildPrefixMap_clean_ok (T P : List String) (used : List Bool)
    (hmem : ∀ pc ∈ P, pc ∈ T) (hnd : P.Nodup)
    (hfree : ∀ pc ∈ P, used.getD ((findColumnIndex pc T).getD 0) false = false) :
    buildPrefixMap T P used = .ok (idxsOf T P, markUsed used (idxsOf T P)) := by
  have h := buildPrefixMap_append T P [] used hmem hnd hfree
  rw [List.append_nil] at h
  rw [h]
  simp [buildPrefixMap]

theorem reorderPrefix_clean (T P : List String)
    (hmem : ∀ pc ∈ P, pc ∈ T) (hnd : P.Nodup) :
    reorderPrefix P T = .ok ((idxsOf T P).map (fun i => T.getD i "") ++
      keepUnused (markUsed (List.replicate T.length false) (idxsOf T P)) 0 T) := by
  unfold reorderPrefix
  rw [buildPrefixMap_clean_ok T P _ hmem hnd (fun pc _ => getD_replicate_false ..)]

theorem keepUnused_eq_filter (used : List Bool) (P : List String) :
    ∀ (L : List String) (k : Nat),
    (∀ j, j < L.length → used.getD (k + j) false = decide (L.getD j "" ∈ P)) →
    keepUnused used k L = L.filter (fun c => !(decide (c ∈ P))) := by
  intro L
  induction L with
  | nil => intro k _; rfl
  | cons c rest ih =>
    intro k h
    have h0 : used.getD k false = decide (c ∈ P) := by
      have := h 0 (by simp)
      simpa using this
    have hrest : ∀ j, j < rest.length →
        used.getD ((k + 1) + j) false = decide (rest.getD j "" ∈ P) := by
      intro j hj
      have := h (j + 1) (by simpa using Nat.succ_lt_succ hj)
      rw [show k + (j + 1) = (k + 1) + j by omega] at this
      simpa using this
    by_cases hc : c ∈ P
    · simp only [keepUnused, h0, hc, decide_True, if_true, List.filter_cons,
        Bool.not_true, Bool.false_eq_true, if_false]
      exact ih (k + 1) hrest
    · simp only [keepUnused, h0, hc, decide_False, Bool.false_eq_true, if_false,
        List.filter_cons, Bool.not_false, if_true]
      rw [ih (k + 1) hrest]

/-- Claim C4: for a lexicographically sorted tag-column list `T` and a
duplicate-free prefix `P` drawn from `T`, `reorder_prefix` succeeds with a
permutation of `T` whose first `|P|` elements are `P` in requested order
and whose remaining elements are the unmatched columns of `T` in their
original relative order. -/
theorem reorderPrefix_grouped_prefix (P T : List String)
    (hsorted : List.Sorted (fun a b => sLt a b = true) T)
    (hmem : ∀ pc ∈ P, pc ∈ T) (hnd : P.Nodup) :
    ∃ out, reorderPrefix P T = .ok out ∧
      out.take P.length = P ∧
      out.drop P.length = T.filter (fun c => !(decide (c ∈ P))) ∧
      out.Perm T := by
  have hTnd : T.Nodup := nodup_of_sorted_sLt hsorted
  have hmapP : (idxsOf T P).map (fun i => T.getD i "") = P := by
    rw [idxsOf, List.map_map]
    have hcg : ∀ pc ∈ P,
        ((fun i => T.getD i "") ∘ fun pc => (findColumnIndex pc T).getD 0) pc = id pc := by
      intro pc hpc
      obtain ⟨i, hfind⟩ := findColumnIndex_isSome_of_mem (hmem pc hpc)
      obtain ⟨hlt, hget⟩ := findColumnIndex_getElem hfind
      simp only [Function.comp, hfind, Option.getD_some, id]
      rw [List.getD_eq_getElem?_getD, hget]
      rfl
    rw [List.map_congr_left hcg, List.map_id]
  have hlt : ∀ i ∈ idxsOf T P, i < (List.replicate T.length false).length := by
    intro i hi
    obtain ⟨pc, hpc, hpci⟩ := List.mem_map.mp hi
    obtain ⟨i', hfind⟩ := findColumnIndex_isSome_of_mem (hmem pc hpc)
    rw [hfind] at hpci
    simp only [Option.getD_some] at hpci
    subst hpci
    rw [List.length_replicate]
    exact (findColumnIndex_getElem hfind).1
  have hmarkiff := markUsed_getD_true_iff (idxsOf T P) (List.replicate T.length false) hlt
  have hkeephyp : ∀ j, j < T.length →
      (markUsed (List.replicate T.length false) (idxsOf T P)).getD (0 + j) false =
        decide (T.getD j "" ∈ P) := by
    intro j hj
    rw [Nat.zero_add]
    by_cases hjP : T.getD j "" ∈ P
    · have hget : T[j]? = some (T.getD j "") := by
        rw [List.getElem?_eq_getElem hj, List.getD_eq_getElem _ _ hj]
      have hfind := findColumnIndex_of_getElem hTnd hget
      have hj' : j ∈ idxsOf T P :=
        List.mem_map.mpr ⟨T.getD j "", hjP, by rw [hfind]; rfl⟩
      rw [(hmarkiff j).mpr (Or.inl hj'), decide_eq_true hjP]
    · have hj' : j ∉ idxsOf T P := by
        intro hmemj
        obtain ⟨pc, hpcP, hpci⟩ := List.mem_map.mp hmemj
        obtain ⟨i, hfind⟩ := findColumnIndex_isSome_of_mem (hmem pc hpcP)
        rw [hfind] at hpci
        simp only [Option.getD_some] at hpci
        subst hpci
        obtain ⟨hlt2, hget2⟩ := findColumnIndex_getElem hfind
        apply hjP
        rw [List.getD_eq_getElem?_getD, hget2]
        exact hpcP
      have hne : (markUsed (List.replicate T.length false) (idxsOf T P)).getD j false ≠ true := by
        intro hcon
        rcases (hmarkiff j).mp hcon with h | h
        · exact hj' h
        · rw [getD_replicate_false] at h
          cases h
      have hfalse : (markUsed (List.replicate T.length false) (idxsOf T P)).getD j false =
          false := by
        cases hgd : (markUsed (List.replicate T.length false) (idxsOf T P)).getD j false
        · rfl
        · exact absurd hgd hne
      rw [hfalse, decide_eq_false hjP]
  have hkeep := keepUnused_eq_filter
    (markUsed (List.replicate T.length false) (idxsOf T P)) P T 0 hkeephyp
  refine ⟨P ++ T.filter (fun c => !(decide (c ∈ P))), ?_, ?_, ?_, ?_⟩
  · rw [reorderPrefix_clean T P hmem hnd, hmapP, hkeep]
  · rw [List.take_left]
  · rw [List.drop_left]
  · have hfilters := List.filter_append_perm (fun c => decide (c ∈ P)) T
    have hPfilter : P.Perm (T.filter (fun c => decide (c ∈ P))) := by
      apply List.perm_of_nodup_nodup_toFinset_eq hnd (hTnd.filter _)
      ext x
      simp only [List.mem_toFinset, List.mem_filter, decide_eq_true_eq]
      constructor
      · intro hx
        exact ⟨hmem x hx, hx⟩
      · rintro ⟨-, hx⟩
        exact hx
    exact (hPfilter.append_right _).trans hfilters

/-- Witness for C4 at a concrete input. -/
theorem reorderPrefix_grouped_prefix_witness :
    ∃ out, reorderPrefix ["two"] ["one", "three", "two"] = .ok out ∧
      out.take 1 = ["two"] ∧
      out.drop 1 = (["one", "three", "two"].filter (fun c => !(decide (c ∈ ["two"])))) ∧
      out.Perm ["one", "three", "two"] :=
  reorderPrefix_grouped_prefix ["two"] ["one", "three", "two"]
    (by decide) (by decide) (by decide)

/-- Decidable equality for `Except`, so that gate witnesses can evaluate
`reorder_prefix` results with `decide`. -/
instance exceptDecEq {e a : Type} [DecidableEq e] [DecidableEq a] :
    DecidableEq (Except e a)
  | .ok x, .ok y =>
    if h : x = y then isTrue (by rw [h]) else isFalse (by intro hc; cases hc; exact h rfl)
  | .ok _, .error _ => isFalse (by intro hc; cases hc)
  | .error _, .ok _ => isFalse (by intro hc; cases hc)
  | .error x, .error y =>
    if h : x = y then isTrue (by rw [h]) else isFalse (by intro hc; cases hc; exact h rfl)

/-- Counterexample for C5: with prefix `[a, a, zz]` over tag columns `[a]`,
the name `zz` is absent from the tag columns, yet the call fails with the
duplicate error for `a` (the scan stops at the first violation), not with
"column not found" for `zz`. -/
theorem reorderPrefix_mixed_violation :
    ("zz" ∈ ["a", "a", "zz"] ∧ "zz" ∉ ["a"]) ∧
    reorderPrefix ["a", "a", "zz"] ["a"] = .error (.DuplicateGroupColumn "a") ∧
    ∀ name all : String,
      reorderPrefix ["a", "a", "zz"] ["a"] ≠ .error (.GroupColumnNotFound name all) := by
  refine ⟨by decide, by decide, ?_⟩
  intro name all h
  have h2 : reorderPrefix ["a", "a", "zz"] ["a"] = .error (.DuplicateGroupColumn "a") := by
    decide
  rw [h2] at h
  cases h

/-- Amended claim C5: the requested prefix is scanned left to right and the
first offending entry determines the outcome: if every prefix name is a
member of the tag columns and no name repeats, the call succeeds; if, after
a clean (present, duplicate-free) initial segment, the next name is absent
from the tag columns, the call fails with `GroupColumnNotFound` naming the
comma-joined tag-column list; if the next name instead repeats a name of
the clean initial segment (resolving to an already consumed column), the
call fails with `DuplicateGroupColumn`. -/
theorem reorderPrefix_error_cases (T : List String) :
    (∀ P, (∀ pc ∈ P, pc ∈ T) → P.Nodup → ∃ out, reorderPrefix P T = .ok out) ∧
    (∀ P₁ pc P₂, (∀ q ∈ P₁, q ∈ T) → P₁.Nodup → pc ∉ T →
      reorderPrefix (P₁ ++ pc :: P₂) T =
        .error (.GroupColumnNotFound pc (String.intercalate ", " T))) ∧
    (∀ P₁ pc P₂, (∀ q ∈ P₁, q ∈ T) → P₁.Nodup → pc ∈ P₁ →
      reorderPrefix (P₁ ++ pc :: P₂) T = .error (.DuplicateGroupColumn pc)) := by
  refine ⟨?_, ?_, ?_⟩
  · intro P hmem hnd
    exact ⟨_, reorderPrefix_clean T P hmem hnd⟩
  · intro P₁ pc P₂ hmem hnd hpcT
    unfold reorderPrefix
    rw [buildPrefixMap_append T P₁ (pc :: P₂) _ hmem hnd
      (fun q _ => getD_replicate_false ..)]
    have hf : findColumnIndex pc T = none := (findColumnIndex_eq_none_iff pc T).mpr hpcT
    simp only [buildPrefixMap, hf]
  · intro P₁ pc P₂ hmem hnd hpcP
    unfold reorderPrefix
    rw [buildPrefixMap_append T P₁ (pc :: P₂) _ hmem hnd
      (fun q _ => getD_replicate_false ..)]
    obtain ⟨i, hfind⟩ := findColumnIndex_isSome_of_mem (hmem pc hpcP)
    have hlt : ∀ x ∈ idxsOf T P₁, x < (List.replicate T.length false).length := by
      intro x hx
      obtain ⟨q, hq, hqx⟩ := List.mem_map.mp hx
      obtain ⟨i', hfind'⟩ := findColumnIndex_isSome_of_mem (hmem q hq)
      rw [hfind'] at hqx
      simp only [Option.getD_some] at hqx
      subst hqx
      rw [List.length_replicate]
      exact (findColumnIndex_getElem hfind').1
    have hi : i ∈ idxsOf T P₁ :=
      List.mem_map.mpr ⟨pc, hpcP, by rw [hfind]; rfl⟩
    have hused : (markUsed (List.replicate T.length false) (idxsOf T P₁)).getD i false =
        true :=
      (markUsed_getD_true_iff (idxsOf T P₁) _ hlt i).mpr (Or.inl hi)
    simp only [buildPrefixMap, hfind, hused, if_true]

/-- Witness for the amended C5 at concrete inputs. -/
theorem reorderPrefix_error_cases_witness :
    (∃ out, reorderPrefix ["a"] ["a", "b"] = .ok out) ∧
    reorderPrefix ["zz"] ["a", "b"] = .error (.GroupColumnNotFound "zz" "a, b") ∧
    reorderPrefix ["a", "a"] ["a", "b"] = .error (.DuplicateGroupColumn "a") := by
  refine ⟨(reorderPrefix_error_cases ["a", "b"]).1 ["a"] (by decide) (by decide), ?_, ?_⟩
  · have h := (reorderPrefix_error_cases ["a", "b"]).2.1 [] "zz" [] (by simp) (by simp)
      (by decide)
    simpa using h
  · have h := (reorderPrefix_error_cases ["a", "b"]).2.2 ["a"] "a" [] (by decide) (by decide)
      (by decide)
    simpa using h

/-! Claim C9: partial row append on failure. -/

theorem with_value_ok (d : Dictionary) (rc : Nat) (v : Value) :
    ∃ d₂ c', Column.with_value d rc v = .ok (d₂, c') := by
  cases v with
  | TagValue s =>
    rcases hlv : d.lookup_value_or_insert s with ⟨d₂, sym⟩
    exact ⟨d₂, .Tag (List.replicate rc none ++ [some sym]),
      by simp [Column.with_value, hlv]⟩
  | StringValue s => exact ⟨d, _, rfl⟩
  | F64Value x => exact ⟨d, _, rfl⟩
  | I64Value x => exact ⟨d, _, rfl⟩
  | BoolValue b => exact ⟨d, _, rfl⟩

theorem appendRowLoop_err (rc : Nat) :
    ∀ (vals : List RowValue) (d : Dictionary) (t : Table) (d' : Dictionary) (t' : Table)
      (e : Error),
      appendRowLoop d t rc vals = (d', t', .err e) →
      ∃ k, k < vals.length ∧ ∃ dk, appendRowLoop d t rc (vals.take k) = (dk, t', .ok ()) := by
  intro vals
  induction vals with
  | nil =>
    intro d t d' t' e h
    simp only [appendRowLoop, Prod.mk.injEq] at h
    exact absurd h.2.2 (by simp)
  | cons v rest ih =>
    intro d t d' t' e h
    simp only [appendRowLoop] at h
    cases hcol : v.column with
    | none =>
      simp only [hcol, Prod.mk.injEq] at h
      obtain ⟨hd, ht, -⟩ := h
      exact ⟨0, by simp, d, by simp [appendRowLoop, ← hd, ← ht]⟩
    | some column_name =>
      simp only [hcol] at h
      rcases hlv : d.lookup_value_or_insert column_name with ⟨d₁, column_id⟩
      simp only [hlv] at h
      cases hli : lookupIdx t.column_id_to_index column_id with
      | some idx =>
        simp only [hli] at h
        cases hc : t.columns[idx]? with
        | none =>
          simp only [hc, Prod.mk.injEq] at h
          exact absurd h.2.2 (by simp)
        | some c =>
          simp only [hc] at h
          cases hp : c.push d₁ v.value with
          | error ce =>
            simp only [hp, Prod.mk.injEq] at h
            obtain ⟨hd, ht, -⟩ := h
            exact ⟨0, by simp, d, by simp [appendRowLoop, ← ht]⟩
          | ok pr =>
            obtain ⟨d₂, c'⟩ := pr
            simp only [hp] at h
            obtain ⟨k, hk, dk, hpre⟩ := ih _ _ _ _ _ h
            refine ⟨k + 1, by simpa using Nat.succ_lt_succ hk, dk, ?_⟩
            rw [List.take_succ_cons]
            simp only [appendRowLoop, hcol, hlv, hli, hc, hp]
            exact hpre
      | none =>
        simp only [hli] at h
        obtain ⟨d₂, c', hw⟩ := with_value_ok d₁ rc v.value
        simp only [hw] at h
        obtain ⟨k, hk, dk, hpre⟩ := ih _ _ _ _ _ h
        refine ⟨k + 1, by simpa using Nat.succ_lt_succ hk, dk, ?_⟩
        rw [List.take_succ_cons]
        simp only [appendRowLoop, hcol, hlv, hli, hw]
        exact hpre

/-- Claim C9: when `append_row` fails mid-row it returns the error with the
table exactly as left by the successfully processed prefix of that row's
values — columns already written stay appended (no rollback) and the
equal-length null-padding step is not run. -/
theorem append_row_partial_failure (d : Dictionary) (t : Table) (vals : List RowValue)
    (d' : Dictionary) (t' : Table) (e : Error)
    (h : t.append_row d vals = (d', t', .err e)) :
    appendRowLoop d t t.row_count vals = (d', t', .err e) ∧
    ∃ k, k < vals.length ∧
      ∃ dk, appendRowLoop d t t.row_count (vals.take k) = (dk, t', .ok ()) := by
  have hloop : appendRowLoop d t t.row_count vals = (d', t', .err e) := by
    simp only [Table.append_row] at h
    rcases hl : appendRowLoop d t t.row_count vals with ⟨dk, tk, rk⟩
    rw [hl] at h
    cases rk with
    | ok u =>
      cases u
      simp only [Prod.mk.injEq] at h
      exact absurd h.2.2 (by simp)
    | err e' =>
      simp only [Prod.mk.injEq] at h
      obtain ⟨h1, h2, h3⟩ := h
      rw [h1, h2, h3]
    | panicked m =>
      simp only [Prod.mk.injEq] at h
      exact absurd h.2.2 (by simp)
  exact ⟨hloop, appendRowLoop_err t.row_count vals d t d' t' e hloop⟩

/-- Fixture for C9: a table with two `i64` columns `a` and `b`, one row each. -/
def tableAB : Table :=
  { id := 0, column_id_to_index := [(0, 0), (1, 1)],
    columns := [.I64 [some 1], .I64 [some 2]] }

/-- Fixture for C9: the table state left behind by the failing row. -/
def tableABerr : Table :=
  { id := 0, column_id_to_index := [(0, 0), (1, 1)],
    columns := [.I64 [some 1, some 9], .I64 [some 2]] }

/-- Witness for C9 at a concrete input: the second value's kind mismatch
aborts the row, leaving column `a` longer than column `b` (no padding, no
rollback). -/
theorem append_row_partial_failure_witness :
    (appendRowLoop ⟨["a", "b"]⟩ tableAB tableAB.row_count
        [⟨some "a", .I64Value 9⟩, ⟨some "b", .F64Value ⟨0⟩⟩] =
      (⟨["a", "b"]⟩, tableABerr, .err (.ColumnErr "b" (.typeMismatch "i64" "f64"))) ∧
    ∃ k, k < 2 ∧
      ∃ dk, appendRowLoop ⟨["a", "b"]⟩ tableAB tableAB.row_count
          ([⟨some "a", .I64Value 9⟩, ⟨some "b", .F64Value ⟨0⟩⟩].take k) =
        (dk, tableABerr, .ok ())) ∧
    tableABerr.columns.map Column.len = [2, 1] ∧
    (2 : Nat) ≠ 1 :=
  ⟨append_row_partial_failure ⟨["a", "b"]⟩ tableAB
      [⟨some "a", .I64Value 9⟩, ⟨some "b", .F64Value ⟨0⟩⟩]
      ⟨["a", "b"]⟩ tableABerr
      (.ColumnErr "b" (.typeMismatch "i64" "f64")) (by decide),
    by decide, by decide⟩

/-! Claim C2: lengths and null padding after `append_rows`. -/

/-- Fixture for C2: one row naming column `a` twice. -/
def rowDup : Row :=
  ⟨some [⟨some "a", .I64Value 1⟩, ⟨some "a", .I64Value 2⟩, ⟨some "b", .I64Value 3⟩]⟩

/-- Fixture for C2: the table produced by appending `rowDup` to a new table. -/
def tableDupResult : Table :=
  { id := 0, column_id_to_index := [(0, 0), (1, 1)],
    columns := [.I64 [some 1, some 2], .I64 [some 3]] }

/-- Counterexample for C2: a successful `append_rows` of one row that lists a
column name twice leaves the columns with unequal lengths `[2, 1]`, neither
equal to the one row appended. -/
theorem append_rows_unequal_lengths :
    (Table.new 0).append_rows ⟨[]⟩ [rowDup] = (⟨["a", "b"]⟩, tableDupResult, .ok ()) ∧
    tableDupResult.columns.map Column.len = [2, 1] ∧
    ([rowDup].filter (fun r => r.values.isSome)).length = 1 ∧
    ¬ (∀ c ∈ tableDupResult.columns, c.len = 1) := by
  refine ⟨by decide, by decide, by decide, by decide⟩

/-- A row acceptable to the amended C2: either no value vector, or a nonempty
one that names each column at most once. -/
def rowOk (row : Row) : Bool :=
  match row.values with
  | none => true
  | some vals => !vals.isEmpty && decide (vals.map RowValue.column).Nodup

/-- Well-formedness of a table against a dictionary: the column index is a
bijection onto valid column positions and its keys are interned symbols. -/
def TableWF (t : Table) (d : Dictionary) : Prop :=
  (t.column_id_to_index.map Prod.fst).Nodup ∧
  (t.column_id_to_index.map Prod.snd).Nodup ∧
  (∀ e ∈ t.column_id_to_index, e.2 < t.columns.length) ∧
  (∀ e ∈ t.column_id_to_index, e.1 < d.entries.length)

/-- Every column has the table's row count as its length. -/
def AllLen (t : Table) : Prop := ∀ c ∈ t.columns, c.len = t.row_count

/-- Growth-only evolution of the dictionary. -/
def DictExtends (d d' : Dictionary) : Prop := ∃ tail, d'.entries = d.entries ++ tail

theorem DictExtends.rfl (d : Dictionary) : DictExtends d d := ⟨[], by simp⟩

theorem DictExtends.trans {d₁ d₂ d₃ : Dictionary} (h1 : DictExtends d₁ d₂)
    (h2 : DictExtends d₂ d₃) : DictExtends d₁ d₃ := by
  obtain ⟨ta, ha⟩ := h1
  obtain ⟨tb, hb⟩ := h2
  exact ⟨ta ++ tb, by rw [hb, ha, List.append_assoc]⟩

theorem DictExtends.le_length {d d' : Dictionary} (h : DictExtends d d') :
    d.entries.length ≤ d'.entries.length := by
  obtain ⟨tail, ht⟩ := h
  rw [ht]
  simp

theorem DictExtends.getElem_stable {d d' : Dictionary} (h : DictExtends d d') {i : Nat}
    {s : String} (hi : d.entries[i]? = some s) : d'.entries[i]? = some s := by
  obtain ⟨tail, ht⟩ := h
  have hlt : i < d.entries.length := by
    rcases List.getElem?_eq_some.mp hi with ⟨hl, -⟩
    exact hl
  rw [ht, List.getElem?_append_left hlt]
  exact hi

theorem DictExtends.getElem_back {d d' : Dictionary} (h : DictExtends d d') {i : Nat}
    {s : String} (hlt : i < d.entries.length) (hi : d'.entries[i]? = some s) :
    d.entries[i]? = some s := by
  obtain ⟨tail, ht⟩ := h
  rw [ht, List.getElem?_append_left hlt] at hi
  exact hi

theorem idxOfStr_getElem {s : String} :
    ∀ {l : List String} {i : Nat}, idxOfStr s l = some i →
      i < l.length ∧ l[i]? = some s := by
  intro l
  induction l with
  | nil => intro i h; simp [idxOfStr] at h
  | cons c rest ih =>
    intro i h
    by_cases hc : c = s
    · simp only [idxOfStr, if_pos hc] at h
      cases h
      simp [hc]
    · simp only [idxOfStr, if_neg hc, Option.map_eq_some'] at h
      obtain ⟨j, hj, hji⟩ := h
      obtain ⟨hlt, hget⟩ := ih hj
      subst hji
      exact ⟨by simpa using hlt, by simpa using hget⟩

theorem lookup_value_or_insert_cases (d : Dictionary) (s : String) :
    (∃ i, d.lookup_value_or_insert s = (d, i) ∧ i < d.entries.length ∧
      d.entries[i]? = some s) ∨
    (d.lookup_value_or_insert s = (⟨d.entries ++ [s]⟩, d.entries.length)) := by
  unfold Dictionary.lookup_value_or_insert
  cases hf : idxOfStr s d.entries with
  | some i =>
    obtain ⟨hlt, hget⟩ := idxOfStr_getElem hf
    exact Or.inl ⟨i, rfl, hlt, hget⟩
  | none => exact Or.inr rfl

theorem lookup_value_or_insert_extends (d : Dictionary) (s : String) :
    DictExtends d (d.lookup_value_or_insert s).1 ∧
    ((d.lookup_value_or_insert s).1).entries[(d.lookup_value_or_insert s).2]? = some s := by
  rcases lookup_value_or_insert_cases d s with ⟨i, heq, hlt, hget⟩ | heq
  · rw [heq]
    exact ⟨DictExtends.rfl d, hget⟩
  · rw [heq]
    exact ⟨⟨[s], rfl⟩, by simp⟩

theorem lookupIdx_inj_of_snd_nodup :
    ∀ {m : List (Nat × Nat)}, (m.map Prod.snd).Nodup →
      ∀ {k₁ k₂ v}, lookupIdx m k₁ = some v → lookupIdx m k₂ = some v → k₁ = k₂ := by
  intro m
  induction m with
  | nil => intro _ k₁ k₂ v h; simp [lookupIdx] at h
  | cons e rest ih =>
    obtain ⟨k, w⟩ := e
    intro hnd k₁ k₂ v h1 h2
    have hnd' : (w :: rest.map Prod.snd).Nodup := by simpa using hnd
    have hnw : w ∉ rest.map Prod.snd := (List.nodup_cons.mp hnd').1
    have hndr : (rest.map Prod.snd).Nodup := (List.nodup_cons.mp hnd').2
    by_cases hk1 : k = k₁ <;> by_cases hk2 : k = k₂
    · rw [← hk1, ← hk2]
    · simp only [lookupIdx, if_pos hk1, if_neg hk2] at h1 h2
      cases h1
      exact absurd (by
        have := lookupIdx_mem h2
        exact List.mem_map.mpr ⟨(k₂, w), this, rfl⟩) hnw
    · simp only [lookupIdx, if_neg hk1, if_pos hk2] at h1 h2
      cases h2
      exact absurd (by
        have := lookupIdx_mem h1
        exact List.mem_map.mpr ⟨(k₁, w), this, rfl⟩) hnw
    · simp only [lookupIdx, if_neg hk1, if_neg hk2] at h1 h2
      exact ih hndr h1 h2

theorem lookupIdx_append_single (m : List (Nat × Nat)) (k₀ v₀ k : Nat) :
    lookupIdx (m ++ [(k₀, v₀)]) k =
      (match lookupIdx m k with
       | some v => some v
       | none => if k₀ = k then some v₀ else none) := by
  induction m with
  | nil => simp [lookupIdx]
  | cons e rest ih =>
    obtain ⟨k', v'⟩ := e
    by_cases hk : k' = k
    · simp [lookupIdx, hk]
    · simp only [List.cons_append, lookupIdx, if_neg hk]
      exact ih

theorem push_ok_spec {c : Column} {d : Dictionary} {v : Value} {d₂ : Dictionary}
    {c' : Column} (h : c.push d v = .ok (d₂, c')) :
    c'.len = c.len + 1 ∧ (∀ i, i < c.len → c'.nullAt i = c.nullAt i) ∧ DictExtends d d₂ := by
  cases c with
  | Tag vals =>
    cases v with
    | TagValue s =>
      rcases hlv : d.lookup_value_or_insert s with ⟨dd, sym⟩
      have hext := (lookup_value_or_insert_extends d s).1
      rw [hlv] at hext
      simp only [Column.push, hlv, Except.ok.injEq, Prod.mk.injEq] at h
      obtain ⟨hd, hc⟩ := h
      subst hd
      subst hc
      refine ⟨by simp [Column.len], ?_, hext⟩
      intro i hi
      simp only [Column.len] at hi
      simp [Column.nullAt, List.getElem?_append_left hi]
    | StringValue s => simp [Column.push] at h
    | F64Value x => simp [Column.push] at h
    | I64Value x => simp [Column.push] at h
    | BoolValue b => simp [Column.push] at h
  | Str vals =>
    cases v with
    | StringValue s =>
      simp only [Column.push, Except.ok.injEq, Prod.mk.injEq] at h
      obtain ⟨hd, hc⟩ := h
      subst hd
      subst hc
      refine ⟨by simp [Column.len], ?_, DictExtends.rfl d⟩
      intro i hi
      simp only [Column.len] at hi
      simp [Column.nullAt, List.getElem?_append_left hi]
    | TagValue s => simp [Column.push] at h
    | F64Value x => simp [Column.push] at h
    | I64Value x => simp [Column.push] at h
    | BoolValue b => simp [Column.push] at h
  | F64 vals =>
    cases v with
    | F64Value x =>
      simp only [Column.push, Except.ok.injEq, Prod.mk.injEq] at h
      obtain ⟨hd, hc⟩ := h
      subst hd
      subst hc
      refine ⟨by simp [Column.len], ?_, DictExtends.rfl d⟩
      intro i hi
      simp only [Column.len] at hi
      simp [Column.nullAt, List.getElem?_append_left hi]
    | TagValue s => simp [Column.push] at h
    | StringValue s => simp [Column.push] at h
    | I64Value x => simp [Column.push] at h
    | BoolValue b => simp [Column.push] at h
  | I64 vals =>
    cases v with
    | I64Value x =>
      simp only [Column.push, Except.ok.injEq, Prod.mk.injEq] at h
      obtain ⟨hd, hc⟩ := h
      subst hd
      subst hc
      refine ⟨by simp [Column.len], ?_, DictExtends.rfl d⟩
      intro i hi
      simp only [Column.len] at hi
      simp [Column.nullAt, List.getElem?_append_left hi]
    | TagValue s => simp [Column.push] at h
    | StringValue s => simp [Column.push] at h
    | F64Value x => simp [Column.push] at h
    | BoolValue b => simp [Column.push] at h
  | Boolean vals =>
    cases v with
    | BoolValue b =>
      simp only [Column.push, Except.ok.injEq, Prod.mk.injEq] at h
      obtain ⟨hd, hc⟩ := h
      subst hd
      subst hc
      refine ⟨by simp [Column.len], ?_, DictExtends.rfl d⟩
      intro i hi
      simp only [Column.len] at hi
      simp [Column.nullAt, List.getElem?_append_left hi]
    | TagValue s => simp [Column.push] at h
    | StringValue s => simp [Column.push] at h
    | F64Value x => simp [Column.push] at h
    | I64Value x => simp [Column.push] at h

theorem with_value_ok_spec {d : Dictionary} {rc : Nat} {v : Value} {d₂ : Dictionary}
    {c' : Column} (h : Column.with_value d rc v = .ok (d₂, c')) :
    c'.len = rc + 1 ∧ (∀ i, i < rc → c'.nullAt i = true) ∧ DictExtends d d₂ := by
  have hrep : ∀ (α : Type) [DecidableEq α] (x : α) (i : Nat), i < rc →
      ((List.replicate rc (none : Option α) ++ [some x])[i]? == some none) = true := by
    intro α _ x i hi
    rw [List.getElem?_append_left (by simpa using hi), List.getElem?_replicate, if_pos hi]
    simp
  cases v with
  | TagValue s =>
    rcases hlv : d.lookup_value_or_insert s with ⟨dd, sym⟩
    have hext := (lookup_value_or_insert_extends d s).1
    rw [hlv] at hext
    simp only [Column.with_value, hlv, Except.ok.injEq, Prod.mk.injEq] at h
    obtain ⟨hd, hc⟩ := h
    subst hd
    subst hc
    exact ⟨by simp [Column.len], fun i hi => by
      simpa [Column.nullAt] using hrep Nat sym i hi, hext⟩
  | StringValue s =>
    simp only [Column.with_value, Except.ok.injEq, Prod.mk.injEq] at h
    obtain ⟨hd, hc⟩ := h
    subst hd
    subst hc
    exact ⟨by simp [Column.len], fun i hi => by
      simpa [Column.nullAt] using hrep String s i hi, DictExtends.rfl d⟩
  | F64Value x =>
    simp only [Column.with_value, Except.ok.injEq, Prod.mk.injEq] at h
    obtain ⟨hd, hc⟩ := h
    subst hd
    subst hc
    exact ⟨by simp [Column.len], fun i hi => by
      simpa [Column.nullAt] using hrep F64 x i hi, DictExtends.rfl d⟩
  | I64Value x =>
    simp only [Column.with_value, Except.ok.injEq, Prod.mk.injEq] at h
    obtain ⟨hd, hc⟩ := h
    subst hd
    subst hc
    exact ⟨by simp [Column.len], fun i hi => by
      simpa [Column.nullAt] using hrep Int x i hi, DictExtends.rfl d⟩
  | BoolValue b =>
    simp only [Column.with_value, Except.ok.injEq, Prod.mk.injEq] at h
    obtain ⟨hd, hc⟩ := h
    subst hd
    subst hc
    exact ⟨by simp [Column.len], fun i hi => by
      simpa [Column.nullAt] using hrep Bool b i hi, DictExtends.rfl d⟩

theorem push_none_len_eq {c : Column} {n : Nat} (h : c.len = n) :
    (c.push_none_if_len_equal n).len = n + 1 := by
  cases c <;> (simp only [Column.len] at h; simp [Column.push_none_if_len_equal, h, Column.len])

theorem push_none_len_ne {c : Column} {n : Nat} (h : c.len ≠ n) :
    c.push_none_if_len_equal n = c := by
  cases c <;> (simp only [Column.len] at h; simp [Column.push_none_if_len_equal, h])

theorem push_none_nullAt {c : Column} (n : Nat) {i : Nat} (hi : i < c.len) :
    (c.push_none_if_len_equal n).nullAt i = c.nullAt i := by
  cases c with
  | Tag vals =>
    simp only [Column.len] at hi
    by_cases hl : vals.length = n
    · simp [Column.push_none_if_len_equal, hl, Column.nullAt,
        List.getElem?_append_left hi]
    · simp [Column.push_none_if_len_equal, hl]
  | Str vals =>
    simp only [Column.len] at hi
    by_cases hl : vals.length = n
    · simp [Column.push_none_if_len_equal, hl, Column.nullAt,
        List.getElem?_append_left hi]
    · simp [Column.push_none_if_len_equal, hl]
  | F64 vals =>
    simp only [Column.len] at hi
    by_cases hl : vals.length = n
    · simp [Column.push_none_if_len_equal, hl, Column.nullAt,
        List.getElem?_append_left hi]
    · simp [Column.push_none_if_len_equal, hl]
  | I64 vals =>
    simp only [Column.len] at hi
    by_cases hl : vals.length = n
    · simp [Column.push_none_if_len_equal, hl, Column.nullAt,
        List.getElem?_append_left hi]
    · simp [Column.push_none_if_len_equal, hl]
  | Boolean vals =>
    simp only [Column.len] at hi
    by_cases hl : vals.length = n
    · simp [Column.push_none_if_len_equal, hl, Column.nullAt,
        List.getElem?_append_left hi]
    · simp [Column.push_none_if_len_equal, hl]

theorem appendRowLoop_ok_spec (rc : Nat) :
    ∀ (vals : List RowValue) (d : Dictionary) (t : Table) (d' : Dictionary) (t' : Table),
      appendRowLoop d t rc vals = (d', t', .ok ()) →
      TableWF t d →
      (∀ c ∈ t.columns, c.len = rc ∨ c.len = rc + 1) →
      (∀ v ∈ vals, ∀ s, v.column = some s →
        ∀ (id idx : Nat) (c : Column), d.entries[id]? = some s →
          lookupIdx t.column_id_to_index id = some idx →
          t.columns[idx]? = some c → c.len = rc) →
      (vals.map RowValue.column).Nodup →
      TableWF t' d' ∧ DictExtends d d' ∧
      t.columns.length ≤ t'.columns.length ∧
      (∀ c ∈ t'.columns, c.len = rc ∨ c.len = rc + 1) ∧
      (∀ (j : Nat) (c : Column), t.columns[j]? = some c →
        ∃ c', t'.columns[j]? = some c' ∧
          c.len ≤ c'.len ∧ ∀ i, i < c.len → c'.nullAt i = c.nullAt i) ∧
      (∀ (j : Nat) (c' : Column), t.columns.length ≤ j → t'.columns[j]? = some c' →
        c'.len = rc + 1 ∧ ∀ i, i < rc → c'.nullAt i = true) ∧
      (vals ≠ [] → t'.columns ≠ []) := by
  intro vals
  induction vals with
  | nil =>
    intro d t d' t' h hwf hlens _ _
    simp only [appendRowLoop, Prod.mk.injEq] at h
    obtain ⟨hd, ht, -⟩ := h
    subst hd
    subst ht
    refine ⟨hwf, DictExtends.rfl d, le_refl _, hlens, ?_, ?_, ?_⟩
    · intro j c hc
      exact ⟨c, hc, le_refl _, fun i _ => rfl⟩
    · intro j c' hj hc'
      rw [List.getElem?_eq_none hj] at hc'
      cases hc'
    · intro hne
      cases hne rfl
  | cons v rest ih =>
    intro d t d' t' h hwf hlens hH4 hnd
    obtain ⟨hkeys, hsnds, hbound, hdbound⟩ := hwf
    simp only [appendRowLoop] at h
    cases hcol : v.column with
    | none =>
      simp only [hcol, Prod.mk.injEq] at h
      exact absurd h.2.2 (by simp)
    | some s =>
      simp only [hcol] at h
      have hndcons : (some s :: rest.map RowValue.column).Nodup := by
        have : v.column :: rest.map RowValue.column = (v :: rest).map RowValue.column := rfl
        rw [← hcol, this]
        exact hnd
      have hsnotin : some s ∉ rest.map RowValue.column := (List.nodup_cons.mp hndcons).1
      have hndrest : (rest.map RowValue.column).Nodup := (List.nodup_cons.mp hndcons).2
      rcases hlv : d.lookup_value_or_insert s with ⟨d₁, cid⟩
      have hext₁ : DictExtends d d₁ := by
        have := (lookup_value_or_insert_extends d s).1
        rwa [hlv] at this
      have hentry₁ : d₁.entries[cid]? = some s := by
        have := (lookup_value_or_insert_extends d s).2
        rwa [hlv] at this
      simp only [hlv] at h
      cases hli : lookupIdx t.column_id_to_index cid with
      | some idx =>
        simp only [hli] at h
        have hmemidx := lookupIdx_mem hli
        have hidxlt : idx < t.columns.length := hbound _ hmemidx
        have hcidlt : cid < d.entries.length := hdbound _ hmemidx
        have hentry₀ : d.entries[cid]? = some s := hext₁.getElem_back hcidlt hentry₁
        cases hcget : t.columns[idx]? with
        | none =>
          simp only [hcget, Prod.mk.injEq] at h
          exact absurd h.2.2 (by simp)
        | some c =>
          simp only [hcget] at h
          cases hp : c.push d₁ v.value with
          | error ce =>
            simp only [hp, Prod.mk.injEq] at h
            exact absurd h.2.2 (by simp)
          | ok pr =>
            obtain ⟨d₂, c'⟩ := pr
            simp only [hp] at h
            obtain ⟨hplen, hpnull, hpext⟩ := push_ok_spec hp
            have hclen : c.len = rc :=
              hH4 v (List.mem_cons_self ..) s hcol cid idx c hentry₀ hli hcget
            have hextd₂ : DictExtends d d₂ := hext₁.trans hpext
            have hwf₂ : TableWF { t with columns := t.columns.set idx c' } d₂ := by
              refine ⟨hkeys, hsnds, ?_, ?_⟩
              · intro e he
                simpa using hbound e he
              · intro e he
                exact lt_of_lt_of_le (hdbound e he) hextd₂.le_length
            have hlens₂ : ∀ c₀ ∈ ({ t with columns := t.columns.set idx c' } : Table).columns,
                c₀.len = rc ∨ c₀.len = rc + 1 := by
              intro c₀ hc₀
              rcases List.mem_or_eq_of_mem_set hc₀ with hin | heq
              · exact hlens c₀ hin
              · subst heq
                right
                rw [hplen, hclen]
            have hH4₂ : ∀ v' ∈ rest, ∀ s', v'.column = some s' →
                ∀ (id idx' : Nat) (c₀ : Column), d₂.entries[id]? = some s' →
                  lookupIdx ({ t with columns := t.columns.set idx c' } : Table).column_id_to_index
                    id = some idx' →
                  ({ t with columns := t.columns.set idx c' } : Table).columns[idx']? = some c₀ →
                  c₀.len = rc := by
              intro v' hv' s' hcol' id idx' c₀ hid hlook hcget'
              by_cases hidxeq : idx' = idx
              · subst hidxeq
                have hideq : id = cid := lookupIdx_inj_of_snd_nodup hsnds hlook hli
                subst hideq
                have hs' : d₂.entries[id]? = some s := hpext.getElem_stable hentry₁
                rw [hid] at hs'
                have : s' = s := by
                  exact (Option.some.inj hs').symm ▸ rfl
                subst this
                exact absurd (List.mem_map.mpr ⟨v', hv', hcol'⟩) hsnotin
              · have hmem' := lookupIdx_mem hlook
                have hidlt : id < d.entries.length := hdbound _ hmem'
                have hid₀ : d.entries[id]? = some s' := hextd₂.getElem_back hidlt hid
                rw [show ({ t with columns := t.columns.set idx c' } : Table).columns =
                  t.columns.set idx c' from rfl, List.getElem?_set_ne (Ne.symm hidxeq)] at hcget'
                exact hH4 v' (List.mem_cons_of_mem _ hv') s' hcol' id idx' c₀ hid₀ hlook hcget'
            obtain ⟨ihWF, ihExt, ihLe, ihLens, ihOld, ihNew, -⟩ :=
              ih d₂ { t with columns := t.columns.set idx c' } d' t' h hwf₂ hlens₂ hH4₂ hndrest
            have hlen₂eq : ({ t with columns := t.columns.set idx c' } : Table).columns.length =
                t.columns.length := by simp
            refine ⟨ihWF, hextd₂.trans ihExt, le_trans (le_of_eq hlen₂eq.symm) ihLe, ihLens,
              ?_, ?_, ?_⟩
            · intro j c₀ hc₀
              by_cases hj : j = idx
              · subst hj
                rw [hcget] at hc₀
                cases hc₀
                obtain ⟨c'', hc'', hle'', hnull''⟩ := ihOld j c'
                  (by simpa using List.getElem?_set_self hidxlt)
                refine ⟨c'', hc'', by omega, ?_⟩
                intro i hi
                rw [hnull'' i (by omega), hpnull i hi]
              · obtain ⟨c'', hc'', hle'', hnull''⟩ := ihOld j c₀
                  (by simpa [List.getElem?_set_ne (Ne.symm hj)] using hc₀)
                exact ⟨c'', hc'', hle'', hnull''⟩
            · intro j c₀ hj hc₀
              exact ihNew j c₀ (by simpa using hj) hc₀
            · intro _
              have hpos : 0 < t'.columns.length := by
                have : 0 < t.columns.length := lt_of_le_of_lt (Nat.zero_le idx) hidxlt
                omega
              exact List.ne_nil_of_length_pos hpos
      | none =>
        simp only [hli] at h
        cases hw : Column.with_value d₁ rc v.value with
        | error ce =>
          simp only [hw, Prod.mk.injEq] at h
          exact absurd h.2.2 (by simp)
        | ok pr =>
          obtain ⟨d₂, newCol⟩ := pr
          simp only [hw] at h
          obtain ⟨hwlen, hwnull, hwext⟩ := with_value_ok_spec hw
          have hextd₂ : DictExtends d d₂ := hext₁.trans hwext
          have hcidlt₂ : cid < d₂.entries.length :=
            lt_of_lt_of_le (List.getElem?_eq_some.mp hentry₁).1 hwext.le_length
          have hcidnotkey : cid ∉ t.column_id_to_index.map Prod.fst :=
            (lookupIdx_none_iff _ _).mp hli
          have hwf₂ : TableWF
              { t with
                column_id_to_index := t.column_id_to_index ++ [(cid, t.columns.length)],
                columns := t.columns ++ [newCol] } d₂ := by
            refine ⟨?_, ?_, ?_, ?_⟩
            · rw [show ({ t with
                  column_id_to_index := t.column_id_to_index ++ [(cid, t.columns.length)],
                  columns := t.columns ++ [newCol] } : Table).column_id_to_index =
                  t.column_id_to_index ++ [(cid, t.columns.length)] from rfl, List.map_append]
              simp [List.nodup_append, hkeys, hcidnotkey]
            · rw [show ({ t with
                  column_id_to_index := t.column_id_to_index ++ [(cid, t.columns.length)],
                  columns := t.columns ++ [newCol] } : Table).column_id_to_index =
                  t.column_id_to_index ++ [(cid, t.columns.length)] from rfl, List.map_append]
              have hnotin : t.columns.length ∉ t.column_id_to_index.map Prod.snd := by
                intro hmem
                obtain ⟨e, he, heq⟩ := List.mem_map.mp hmem
                have := hbound e he
                omega
              simp [List.nodup_append, hsnds, hnotin]
            · intro e he
              rcases List.mem_append.mp he with hin | hin
              · have := hbound e hin
                simp only [List.length_append, List.length_cons, List.length_nil]
                omega
              · simp only [List.mem_singleton] at hin
                subst hin
                simp
            · intro e he
              rcases List.mem_append.mp he with hin | hin
              · exact lt_of_lt_of_le (hdbound e hin) hextd₂.le_length
              · simp only [List.mem_singleton] at hin
                subst hin
                exact hcidlt₂
          have hlens₂ : ∀ c₀ ∈ ({ t with
              column_id_to_index := t.column_id_to_index ++ [(cid, t.columns.length)],
              columns := t.columns ++ [newCol] } : Table).columns,
              c₀.len = rc ∨ c₀.len = rc + 1 := by
            intro c₀ hc₀
            rcases List.mem_append.mp hc₀ with hin | hin
            · exact hlens c₀ hin
            · simp only [List.mem_singleton] at hin
              subst hin
              right
              exact hwlen
          have hH4₂ : ∀ v' ∈ rest, ∀ s', v'.column = some s' →
              ∀ (id idx' : Nat) (c₀ : Column), d₂.entries[id]? = some s' →
                lookupIdx ({ t with
                  column_id_to_index := t.column_id_to_index ++ [(cid, t.columns.length)],
                  columns := t.columns ++ [newCol] } : Table).column_id_to_index id =
                  some idx' →
                ({ t with
                  column_id_to_index := t.column_id_to_index ++ [(cid, t.columns.length)],
                  columns := t.columns ++ [newCol] } : Table).columns[idx']? = some c₀ →
                c₀.len = rc := by
            intro v' hv' s' hcol' id idx' c₀ hid hlook hcget'
            rw [show ({ t with
                column_id_to_index := t.column_id_to_index ++ [(cid, t.columns.length)],
                columns := t.columns ++ [newCol] } : Table).column_id_to_index =
                t.column_id_to_index ++ [(cid, t.columns.length)] from rfl,
              lookupIdx_append_single] at hlook
            cases hold : lookupIdx t.column_id_to_index id with
            | some w =>
              simp only [hold] at hlook
              cases hlook
              have hmem' := lookupIdx_mem hold
              have hwlt : idx' < t.columns.length := hbound _ hmem'
              have hidlt : id < d.entries.length := hdbound _ hmem'
              have hid₀ : d.entries[id]? = some s' := hextd₂.getElem_back hidlt hid
              rw [show ({ t with
                  column_id_to_index := t.column_id_to_index ++ [(cid, t.columns.length)],
                  columns := t.columns ++ [newCol] } : Table).columns =
                  t.columns ++ [newCol] from rfl, List.getElem?_append_left hwlt] at hcget'
              exact hH4 v' (List.mem_cons_of_mem _ hv') s' hcol' id idx' c₀ hid₀ hold hcget'
            | none =>
              simp only [hold] at hlook
              by_cases hcideq : cid = id
              · subst hcideq
                have hs' : d₂.entries[cid]? = some s := hwext.getElem_stable hentry₁
                rw [hid] at hs'
                have : s' = s := (Option.some.inj hs').symm ▸ rfl
                subst this
                exact absurd (List.mem_map.mpr ⟨v', hv', hcol'⟩) hsnotin
              · rw [if_neg hcideq] at hlook
                cases hlook
          obtain ⟨ihWF, ihExt, ihLe, ihLens, ihOld, ihNew, -⟩ :=
            ih d₂ { t with
              column_id_to_index := t.column_id_to_index ++ [(cid, t.columns.length)],
              columns := t.columns ++ [newCol] } d' t' h hwf₂ hlens₂ hH4₂ hndrest
          have hlen₂eq : ({ t with
              column_id_to_index := t.column_id_to_index ++ [(cid, t.columns.length)],
              columns := t.columns ++ [newCol] } : Table).columns.length =
              t.columns.length + 1 := by simp
          refine ⟨ihWF, hextd₂.trans ihExt, by omega, ihLens, ?_, ?_, ?_⟩
          · intro j c₀ hc₀
            have hjlt : j < t.columns.length := (List.getElem?_eq_some.mp hc₀).1
            exact ihOld j c₀ (by
              rw [show ({ t with
                column_id_to_index := t.column_id_to_index ++ [(cid, t.columns.length)],
                columns := t.columns ++ [newCol] } : Table).columns =
                t.columns ++ [newCol] from rfl, List.getElem?_append_left hjlt]
              exact hc₀)
          · intro j c₀ hj hc₀
            by_cases hjeq : j = t.columns.length
            · subst hjeq
              obtain ⟨c'', hc'', hle'', hnull''⟩ := ihOld t.columns.length newCol (by
                rw [show ({ t with
                  column_id_to_index := t.column_id_to_index ++ [(cid, t.columns.length)],
                  columns := t.columns ++ [newCol] } : Table).columns =
                  t.columns ++ [newCol] from rfl]
                exact List.getElem?_concat_length _ _)
              rw [hc₀] at hc''
              cases hc''
              have hc₀mem : c₀ ∈ t'.columns := List.getElem?_mem hc₀
              have hc₀len : c₀.len = rc + 1 := by
                rcases ihLens c₀ hc₀mem with hl | hl
                · omega
                · exact hl
              refine ⟨hc₀len, ?_⟩
              intro i hi
              rw [hnull'' i (by omega), hwnull i hi]
            · have hj₂ : ({ t with
                  column_id_to_index := t.column_id_to_index ++ [(cid, t.columns.length)],
                  columns := t.columns ++ [newCol] } : Table).columns.length ≤ j := by
                rw [hlen₂eq]
                omega
              exact ihNew j c₀ hj₂ hc₀
          · intro _
            have hpos : 0 < t'.columns.length := by omega
            exact List.ne_nil_of_length_pos hpos

theorem row_count_of_alllen {t : Table} {n : Nat} (hne : t.columns ≠ [])
    (h : ∀ c ∈ t.columns, c.len = n) : t.row_count = n := by
  cases hc : t.columns with
  | nil => cases hne hc
  | cons c cs =>
    unfold Table.row_count
    rw [hc]
    simp [h c (by rw [hc]; exact List.mem_cons_self ..)]

theorem append_row_ok_spec {d : Dictionary} {t : Table} {vals : List RowValue}
    {d' : Dictionary} {t' : Table}
    (h : t.append_row d vals = (d', t', .ok ()))
    (hwf : TableWF t d) (hal : AllLen t)
    (hnd : (vals.map RowValue.column).Nodup) (hne : vals ≠ []) :
    TableWF t' d' ∧ DictExtends d d' ∧ AllLen t' ∧
    t'.row_count = t.row_count + 1 ∧
    t.columns.length ≤ t'.columns.length ∧
    (∀ (j : Nat) (c : Column), t.columns[j]? = some c →
      ∃ c', t'.columns[j]? = some c' ∧
        ∀ i, i < t.row_count → c'.nullAt i = c.nullAt i) ∧
    (∀ (j : Nat) (c' : Column), t.columns.length ≤ j → t'.columns[j]? = some c' →
      ∀ i, i < t.row_count → c'.nullAt i = true) := by
  simp only [Table.append_row] at h
  rcases hl : appendRowLoop d t t.row_count vals with ⟨d₂, t₂, r₂⟩
  rw [hl] at h
  cases r₂ with
  | err e => simp at h
  | panicked m => simp at h
  | ok u =>
    cases u
    simp only [Prod.mk.injEq] at h
    obtain ⟨hd, ht, -⟩ := h
    subst hd
    obtain ⟨loopWF, loopExt, loopLe, loopLens, loopOld, loopNew, loopNe⟩ :=
      appendRowLoop_ok_spec t.row_count vals d t d₂ t₂ hl hwf
        (fun c hc => Or.inl (hal c hc))
        (fun v _ s _ id idx c _ _ hcget => hal c (List.getElem?_mem hcget))
        hnd
    have hne₂ : t₂.columns ≠ [] := loopNe hne
    have hlenmap : (t₂.columns.map
        (fun c => c.push_none_if_len_equal t.row_count)).length = t₂.columns.length := by
      simp
    have hlens' : ∀ c' ∈ t₂.columns.map (fun c => c.push_none_if_len_equal t.row_count),
        c'.len = t.row_count + 1 := by
      intro c' hc'
      obtain ⟨c₂, hc₂, hf⟩ := List.mem_map.mp hc'
      subst hf
      rcases loopLens c₂ hc₂ with hl2 | hl2
      · exact push_none_len_eq hl2
      · rw [push_none_len_ne (by omega)]
        exact hl2
    have hnemap : t₂.columns.map (fun c => c.push_none_if_len_equal t.row_count) ≠ [] := by
      intro hcon
      exact hne₂ (List.map_eq_nil_iff.mp hcon)
    rw [← ht]
    have hrc' : ({ t₂ with columns := t₂.columns.map (fun c => c.push_none_if_len_equal t.row_count) } : Table).row_count = t.row_count + 1 :=
      row_count_of_alllen hnemap hlens'
    refine ⟨?_, ?_, ?_, ?_, ?_, ?_, ?_⟩
    · obtain ⟨k1, k2, k3, k4⟩ := loopWF
      exact ⟨k1, k2, fun e he => by simpa using k3 e he, k4⟩
    · exact loopExt
    · intro c' hc'
      rw [hrc']
      exact hlens' c' hc'
    · exact hrc'
    · simpa using loopLe
    · intro j c hc
      obtain ⟨c₂, hc₂, hle₂, hnull₂⟩ := loopOld j c hc
      have hclen : c.len = t.row_count := hal c (List.getElem?_mem hc)
      refine ⟨c₂.push_none_if_len_equal t.row_count, ?_, ?_⟩
      · show (t₂.columns.map (fun c => c.push_none_if_len_equal t.row_count))[j]? = _
        rw [List.getElem?_map, hc₂]
        rfl
      · intro i hi
        rw [push_none_nullAt _ (by omega), hnull₂ i (by omega)]
    · intro j c' hj hc'
      have hj₂ : t.columns.length ≤ j := hj
      show ∀ i, i < t.row_count → c'.nullAt i = true
      have hc'' : (t₂.columns[j]?).map
          (fun c => c.push_none_if_len_equal t.row_count) = some c' := by
        rw [← List.getElem?_map]
        exact hc'
      obtain ⟨c₂, hc₂, hf⟩ := Option.map_eq_some'.mp hc''
      obtain ⟨hlen₂, hnull₂⟩ := loopNew j c₂ hj₂ hc₂
      have : c₂.push_none_if_len_equal t.row_count = c₂ := push_none_len_ne (by omega)
      rw [this] at hf
      subst hf
      exact hnull₂

theorem append_rows_cons_none {t : Table} {d : Dictionary} {row : Row} {rest : List Row}
    (hv : row.values = none) :
    t.append_rows d (row :: rest) = t.append_rows d rest := by
  simp [Table.append_rows, hv]

theorem append_rows_cons_some {t : Table} {d : Dictionary} {row : Row} {rest : List Row}
    {vals : List RowValue} (hv : row.values = some vals) :
    t.append_rows d (row :: rest) =
      (match t.append_row d vals with
       | (d', t', .ok _) => t'.append_rows d' rest
       | r => r) := by
  simp only [Table.append_rows, hv]
  rcases t.append_row d vals with ⟨da, ta, ra⟩
  cases ra <;> rfl

theorem append_rows_append (rows₁ rows₂ : List Row) :
    ∀ (d : Dictionary) (t : Table), t.append_rows d (rows₁ ++ rows₂) =
      (match t.append_rows d rows₁ with
       | (d₁, t₁, .ok _) => t₁.append_rows d₁ rows₂
       | (d₁, t₁, .err e) => (d₁, t₁, .err e)
       | (d₁, t₁, .panicked m) => (d₁, t₁, .panicked m)) := by
  induction rows₁ with
  | nil =>
    intro d t
    simp only [List.nil_append, Table.append_rows]
  | cons row rest ih =>
    intro d t
    rw [List.cons_append]
    cases hv : row.values with
    | none =>
      rw [append_rows_cons_none hv, append_rows_cons_none hv]
      exact ih d t
    | some vals =>
      rw [append_rows_cons_some hv, append_rows_cons_some hv]
      rcases hs : t.append_row d vals with ⟨d₂, t₂, r₂⟩
      cases r₂ with
      | ok u =>
        cases u
        exact ih d₂ t₂
      | err e => rfl
      | panicked m => rfl

theorem append_rows_ok_spec :
    ∀ (rows : List Row) (d : Dictionary) (t : Table) (d' : Dictionary) (t' : Table),
      t.append_rows d rows = (d', t', .ok ()) →
      (∀ row ∈ rows, rowOk row = true) →
      TableWF t d → AllLen t →
      TableWF t' d' ∧ AllLen t' ∧
      t'.row_count = t.row_count + (rows.filter (fun r => r.values.isSome)).length ∧
      t.columns.length ≤ t'.columns.length ∧
      (∀ (j : Nat) (c : Column), t.columns[j]? = some c →
        ∃ c', t'.columns[j]? = some c' ∧
          ∀ i, i < t.row_count → c'.nullAt i = c.nullAt i) ∧
      (∀ (j : Nat) (c' : Column), t.columns.length ≤ j → t'.columns[j]? = some c' →
        ∀ i, i < t.row_count → c'.nullAt i = true) := by
  intro rows
  induction rows with
  | nil =>
    intro d t d' t' h _ hwf hal
    simp only [Table.append_rows, Prod.mk.injEq] at h
    obtain ⟨hd, ht, -⟩ := h
    subst hd
    subst ht
    refine ⟨hwf, hal, by simp, le_refl _, ?_, ?_⟩
    · intro j c hc
      exact ⟨c, hc, fun i _ => rfl⟩
    · intro j c' hj hc'
      rw [List.getElem?_eq_none hj] at hc'
      cases hc'
  | cons row rest ih =>
    intro d t d' t' h hok hwf hal
    simp only [Table.append_rows] at h
    cases hv : row.values with
    | none =>
      simp only [hv] at h
      obtain ⟨a1, a2, a3, a4, a5, a6⟩ :=
        ih d t d' t' h (fun r hr => hok r (List.mem_cons_of_mem _ hr)) hwf hal
      refine ⟨a1, a2, ?_, a4, a5, a6⟩
      rw [a3]
      simp [List.filter_cons, hv]
    | some vals =>
      simp only [hv] at h
      have hok0 := hok row (List.mem_cons_self ..)
      rw [rowOk] at hok0
      rw [hv] at hok0
      rw [Bool.and_eq_true] at hok0
      obtain ⟨hne0, hnd0⟩ := hok0
      have hnevals : vals ≠ [] := by
        intro hcon
        subst hcon
        simp at hne0
      have hndvals : (vals.map RowValue.column).Nodup := of_decide_eq_true hnd0
      rcases hs : t.append_row d vals with ⟨d₂, t₂, r₂⟩
      rw [hs] at h
      cases r₂ with
      | err e => simp at h
      | panicked m => simp at h
      | ok u =>
        cases u
        obtain ⟨sWF, sExt, sAL, sRC, sLe, sOld, sNew⟩ :=
          append_row_ok_spec hs hwf hal hndvals hnevals
        obtain ⟨a1, a2, a3, a4, a5, a6⟩ :=
          ih d₂ t₂ d' t' h (fun r hr => hok r (List.mem_cons_of_mem _ hr)) sWF sAL
        refine ⟨a1, a2, ?_, le_trans sLe a4, ?_, ?_⟩
        · rw [a3, sRC]
          simp only [List.filter_cons, hv, Option.isSome_some, if_true, List.length_cons]
          omega
        · intro j c hc
          obtain ⟨c₂, hc₂, hnull₂⟩ := sOld j c hc
          obtain ⟨c', hc', hnull'⟩ := a5 j c₂ hc₂
          refine ⟨c', hc', ?_⟩
          intro i hi
          rw [hnull' i (by omega), hnull₂ i hi]
        · intro j c' hj hc'
          by_cases hj₂ : j < t₂.columns.length
          · have hc₂ : t₂.columns[j]? = some t₂.columns[j] := List.getElem?_eq_getElem hj₂
            obtain ⟨hnull₂⟩ := And.intro (sNew j (t₂.columns[j]) hj hc₂) trivial
            obtain ⟨c'', hc'', hnull''⟩ := a5 j (t₂.columns[j]) hc₂
            rw [hc'] at hc''
            cases hc''
            intro i hi
            rw [hnull'' i (by omega), hnull₂ i hi]
          · have hj₂' : t₂.columns.length ≤ j := by omega
            intro i hi
            exact a6 j c' hj₂' hc' i (by omega)

/-- Amended claim C2: for rows whose value vectors, when present, are nonempty
and name each column at most once, a successful `append_rows` from a fresh
table leaves every column with length equal to the number of value-bearing
rows appended (reported by `row_count`, 0 with no columns), and a column
absent after any prefix of the rows is null at every row index the prefix
produced. -/
theorem append_rows_lengths_and_padding (rows : List Row) (d d' : Dictionary) (t' : Table)
    (id : Nat)
    (hrows : ∀ row ∈ rows, rowOk row = true)
    (h : (Table.new id).append_rows d rows = (d', t', .ok ())) :
    (∀ c ∈ t'.columns, c.len = t'.row_count) ∧
    t'.row_count = (rows.filter (fun r => r.values.isSome)).length ∧
    (∀ rows₁ rows₂, rows = rows₁ ++ rows₂ →
      ∀ (d₁ : Dictionary) (t₁ : Table),
        (Table.new id).append_rows d rows₁ = (d₁, t₁, .ok ()) →
        ∀ (j : Nat) (c : Column), t₁.columns.length ≤ j → t'.columns[j]? = some c →
        ∀ i, i < t₁.row_count → c.nullAt i = true) := by
  have hwf0 : TableWF (Table.new id) d := by
    refine ⟨by simp [Table.new], by simp [Table.new], ?_, ?_⟩ <;>
      (intro e he; simp [Table.new] at he)
  have hal0 : AllLen (Table.new id) := by
    intro c hc
    simp [Table.new] at hc
  obtain ⟨a1, a2, a3, a4, a5, a6⟩ :=
    append_rows_ok_spec rows d (Table.new id) d' t' h hrows hwf0 hal0
  refine ⟨a2, ?_, ?_⟩
  · rw [a3]
    simp [Table.new, Table.row_count]
  · intro rows₁ rows₂ hsplit d₁ t₁ hpre j c hj hc i hi
    subst hsplit
    have hcomp := append_rows_append rows₁ rows₂ d (Table.new id)
    rw [hpre] at hcomp
    have hsuf : t₁.append_rows d₁ rows₂ = (d', t', .ok ()) := hcomp.symm.trans h
    obtain ⟨p1, p2, -, -, -, -⟩ :=
      append_rows_ok_spec rows₁ d (Table.new id) d₁ t₁ hpre
        (fun r hr => hrows r (List.mem_append_left _ hr)) hwf0 hal0
    obtain ⟨-, -, -, -, -, s6⟩ :=
      append_rows_ok_spec rows₂ d₁ t₁ d' t' hsuf
        (fun r hr => hrows r (List.mem_append_right _ hr)) p1 p2
    exact s6 j c hj hc i hi

/-- Fixture for C2's witness: two well-formed rows, the second introducing a
new column `b`. -/
def rowsW : List Row :=
  [⟨some [⟨some "a", .I64Value 5⟩]⟩,
   ⟨some [⟨some "b", .F64Value ⟨3⟩⟩, ⟨some "a", .I64Value 6⟩]⟩]

/-- Fixture for C2's witness: the resulting table — note column `b` is
null-padded at row 0. -/
def tableW : Table :=
  { id := 0, column_id_to_index := [(0, 0), (1, 1)],
    columns := [.I64 [some 5, some 6], .F64 [none, some ⟨3⟩]] }

/-- Witness for the amended C2 at a concrete input. -/
theorem append_rows_lengths_and_padding_witness :
    (∀ c ∈ tableW.columns, c.len = tableW.row_count) ∧
    tableW.row_count = (rowsW.filter (fun r => r.values.isSome)).length ∧
    (∀ rows₁ rows₂, rowsW = rows₁ ++ rows₂ →
      ∀ (d₁ : Dictionary) (t₁ : Table),
        (Table.new 0).append_rows ⟨[]⟩ rows₁ = (d₁, t₁, .ok ()) →
        ∀ (j : Nat) (c : Column), t₁.columns.length ≤ j → tableW.columns[j]? = some c →
        ∀ i, i < t₁.row_count → c.nullAt i = true) :=
  append_rows_lengths_and_padding rowsW ⟨[]⟩ ⟨["a", "b"]⟩ tableW 0
    (by decide) (by decide)
